import Mathlib

/-!
Verification of the digle storage core: the ordered multimap (`MMap`),
the digle data structure (`DigleData`) with its reversible mutation
primitives, and the graph algebra (DFS-based topological sort and
linear-order detection) layered on top.

Machine integers of the source (`u64` line indices) are modelled as `Nat`:
no arithmetic is performed on them, they are only compared, so overflow is
irrelevant.  `BTreeSet` is modelled as a strictly sorted list, `BTreeMap`
as a strictly key-sorted association list; this makes structural equality
of the model coincide with structural equality of the Rust values.
-/

/-- A line identifier.  In the source this is a `(patch, line)` pair with a
total order; it is opaque to all the code verified here, so we model it as
a `Nat` (any infinite linear order would do). -/
abbrev LineId := Nat

/-- A directed edge of a digle (`storage/digle.rs`): only the destination is
stored, together with the tombstone flag of the destination. -/
structure Edge where
  dest : LineId
  deleted : Bool
deriving DecidableEq, Repr

/-- The order on `Edge` derived by `#[derive(Ord)]` in the source:
lexicographic in field declaration order, i.e. by `dest` first and then by
`deleted` (with `false < true`). -/
def Edge.toPair (e : Edge) : Lex (Nat × Bool) := toLex (e.dest, e.deleted)

instance : LinearOrder Edge :=
  LinearOrder.lift' Edge.toPair (by
    intro a b h
    cases a; cases b
    simpa [Edge.toPair, toLex, Prod.ext_iff] using h)

theorem edge_lt_iff (e1 e2 : Edge) :
    e1 < e2 ↔ e1.dest < e2.dest ∨ (e1.dest = e2.dest ∧ e1.deleted = false ∧ e2.deleted = true) := by
  cases e1 with | mk d1 x1 =>
  cases e2 with | mk d2 x2 =>
  show Edge.toPair _ < Edge.toPair _ ↔ _
  simp only [Edge.toPair, Prod.Lex.lt_iff]
  cases x1 <;> cases x2 <;> simp

/-- The edge order claimed by the spec ("ordered lexicographically by
`(deleted, dest)`, `deleted = false` sorts before `deleted = true`"),
written from the spec's words for comparison with the derived order. -/
def edgeLtSpec (e1 e2 : Edge) : Bool :=
  (!e1.deleted && e2.deleted) ||
    (e1.deleted == e2.deleted && decide (e1.dest < e2.dest))

/-! ## Ordered sets as strictly sorted lists -/

/-- Insertion into a `BTreeSet` modelled as a strictly sorted list:
inserting an element already present is a no-op. -/
def sortedInsert [LinearOrder α] (x : α) : List α → List α
  | [] => [x]
  | y :: ys => if x = y then y :: ys else if x < y then x :: y :: ys else y :: sortedInsert x ys

/-- Removal from a `BTreeSet` modelled as a list: drops the element. -/
def setRemove [LinearOrder α] (x : α) (l : List α) : List α :=
  l.filter (fun y => decide (y ≠ x))

theorem mem_sortedInsert [LinearOrder α] (x y : α) (l : List α) :
    y ∈ sortedInsert x l ↔ y = x ∨ y ∈ l := by
  induction l with
  | nil => simp [sortedInsert]
  | cons z zs ih =>
    simp only [sortedInsert]
    split
    · next h => subst h; simp only [List.mem_cons]; try tauto
    · split
      · simp only [List.mem_cons]; try tauto
      · simp only [List.mem_cons, ih]; try tauto

theorem mem_setRemove [LinearOrder α] (x y : α) (l : List α) :
    y ∈ setRemove x l ↔ y ∈ l ∧ y ≠ x := by
  simp [setRemove, List.mem_filter]

theorem sortedInsert_pairwise [LinearOrder α] (x : α) (l : List α)
    (h : l.Pairwise (· < ·)) : (sortedInsert x l).Pairwise (· < ·) := by
  induction l with
  | nil => simp [sortedInsert]
  | cons z zs ih =>
    simp only [sortedInsert]
    rcases List.pairwise_cons.1 h with ⟨hz, hzs⟩
    split
    · next he => exact h
    · split
      · next hne hlt =>
        refine List.pairwise_cons.2 ⟨?_, h⟩
        intro b hb
        rcases List.mem_cons.1 hb with rfl | hb
        · exact hlt
        · exact lt_trans hlt (hz b hb)
      · next hne hnlt =>
        have hzx : z < x := lt_of_le_of_ne (not_lt.1 hnlt) (fun h' => hne h'.symm)
        refine List.pairwise_cons.2 ⟨?_, ih hzs⟩
        intro b hb
        rcases (mem_sortedInsert x b zs).1 hb with rfl | hb
        · exact hzx
        · exact hz b hb

theorem setRemove_pairwise [LinearOrder α] (x : α) (l : List α)
    (h : l.Pairwise (· < ·)) : (setRemove x l).Pairwise (· < ·) :=
  List.Pairwise.sublist (List.filter_sublist l) h

/-- Removing a just-inserted fresh element gives back the original list. -/
theorem setRemove_sortedInsert [LinearOrder α] (x : α) (l : List α)
    (hx : x ∉ l) : setRemove x (sortedInsert x l) = l := by
  induction l with
  | nil => simp [sortedInsert, setRemove]
  | cons z zs ih =>
    have hxz : x ≠ z := fun h => hx (h ▸ List.mem_cons_self z zs)
    have hxzs : x ∉ zs := fun h => hx (List.mem_cons_of_mem z h)
    simp only [sortedInsert]
    rw [if_neg hxz]
    split
    · simp only [setRemove, List.filter]
      rw [show (decide (x ≠ x)) = false by simp]
      have h1 : (decide (z ≠ x)) = true := by
        simp only [decide_eq_true_eq]
        exact fun h => hxz h.symm
      simp only [h1]
      congr 1
      have : ∀ y ∈ zs, (decide (y ≠ x)) = true := by
        intro y hy
        simp only [decide_eq_true_eq]
        exact fun h => hxzs (h ▸ hy)
      exact List.filter_eq_self.2 this
    · simp only [setRemove, List.filter]
      have h1 : (decide (z ≠ x)) = true := by
        simp only [decide_eq_true_eq]
        exact fun h => hxz h.symm
      simp only [h1]
      have := ih hxzs
      simp only [setRemove] at this
      rw [this]

/-- Re-inserting a just-removed element of a strictly sorted list gives
back the original list. -/
theorem sortedInsert_setRemove [LinearOrder α] (x : α) (l : List α)
    (hs : l.Pairwise (· < ·)) (hx : x ∈ l) : sortedInsert x (setRemove x l) = l := by
  induction l with
  | nil => cases hx
  | cons z zs ih =>
    rcases List.pairwise_cons.1 hs with ⟨hz, hzs⟩
    by_cases hxz : x = z
    · subst hxz
      have hx' : x ∉ zs := fun h => lt_irrefl x (hz x h)
      simp only [setRemove, List.filter]
      rw [show (decide (x ≠ x)) = false by simp]
      have : zs.filter (fun y => decide (y ≠ x)) = zs := by
        refine List.filter_eq_self.2 ?_
        intro y hy
        simp only [decide_eq_true_eq]
        exact fun h => hx' (h ▸ hy)
      rw [this]
      cases zs with
      | nil => simp [sortedInsert]
      | cons w ws =>
        have hxw : x < w := hz w (List.mem_cons_self w ws)
        simp [sortedInsert, ne_of_lt hxw, hxw]
    · have hxzs : x ∈ zs := by
        rcases List.mem_cons.1 hx with h | h
        · exact absurd h hxz
        · exact h
      have hzx : z < x := hz x hxzs
      simp only [setRemove, List.filter]
      have h1 : (decide (z ≠ x)) = true := by
        simp only [decide_eq_true_eq]
        exact fun h => hxz h.symm
      simp only [h1]
      have ih' := ih hzs hxzs
      simp only [setRemove] at ih'
      simp only [sortedInsert]
      rw [if_neg hxz, if_neg (not_lt.2 (le_of_lt hzx)), ih']

/-! ## The ordered multimap (`multimap/src/lib.rs`) -/

/-- `MMap<K, V>`: a `BTreeMap<K, BTreeSet<V>>` modelled as a strictly
key-sorted association list of strictly sorted nonempty value lists.
(The source's `empty_set` field is an iterator artifact with no semantic
content and is not modelled.) -/
structure MMap (K V : Type) where
  map : List (K × List V)
deriving DecidableEq, Repr

def MMap.new {K V : Type} : MMap K V := ⟨[]⟩

/-- Association-list lookup (first matching key). -/
def lookupKey [LinearOrder K] (k : K) : List (K × List V) → List V
  | [] => []
  | p :: rest => if p.1 = k then p.2 else lookupKey k rest

/-- `MMap::get`: all values at `k`, in value order; empty if absent. -/
def MMap.get [LinearOrder K] (m : MMap K V) (k : K) : List V :=
  lookupKey k m.map

def insertPairs [LinearOrder K] [LinearOrder V] (k : K) (v : V) :
    List (K × List V) → List (K × List V)
  | [] => [(k, [v])]
  | (k', vs) :: rest =>
    if k = k' then (k', sortedInsert v vs) :: rest
    else if k < k' then (k, [v]) :: (k', vs) :: rest
    else (k', vs) :: insertPairs k v rest

/-- `MMap::insert`: add `v` to the set at `k` (no-op if present). -/
def MMap.insert [LinearOrder K] [LinearOrder V] (m : MMap K V) (k : K) (v : V) : MMap K V :=
  ⟨insertPairs k v m.map⟩

def removePairs [LinearOrder K] [LinearOrder V] (k : K) (v : V) :
    List (K × List V) → List (K × List V)
  | [] => []
  | (k', vs) :: rest =>
    if k = k' then
      (if setRemove v vs = [] then rest else (k', setRemove v vs) :: rest)
    else (k', vs) :: removePairs k v rest

/-- `MMap::remove`: remove `v` from the set at `k`; if the set becomes
empty the key itself is removed from the underlying map. -/
def MMap.remove [LinearOrder K] [LinearOrder V] (m : MMap K V) (k : K) (v : V) : MMap K V :=
  ⟨removePairs k v m.map⟩

/-- `MMap::remove_all`: drop the key entirely. -/
def MMap.removeAll [LinearOrder K] (m : MMap K V) (k : K) : MMap K V :=
  ⟨m.map.filter (fun p => decide (p.1 ≠ k))⟩

/-- `MMap::contains`. -/
def MMap.contains [LinearOrder K] [LinearOrder V] (m : MMap K V) (k : K) (v : V) : Bool :=
  decide (v ∈ m.get k)

/-- `MMap::iter`: all `(k, v)` pairs in `(k, v)`-lexicographic order. -/
def MMap.iter (m : MMap K V) : List (K × V) :=
  m.map.flatMap (fun p => p.2.map (fun v => (p.1, v)))

/-- Representation invariant of the `BTreeMap`-of-`BTreeSet` model: keys
strictly sorted, every value set strictly sorted and nonempty. -/
def MMap.WF [LinearOrder K] [LinearOrder V] (m : MMap K V) : Prop :=
  m.map.Pairwise (fun p q => p.1 < q.1) ∧
    ∀ p ∈ m.map, p.2 ≠ [] ∧ p.2.Pairwise (· < ·)

instance [LinearOrder K] [LinearOrder V] (m : MMap K V) : Decidable m.WF := by
  unfold MMap.WF; infer_instance

/-! ## The digle store (`libjp/src/storage/digle.rs`) -/

/-- `DigleData`: live lines, tombstoned lines, forward and back edges. -/
structure DigleData where
  lines : List LineId
  deleted_lines : List LineId
  edges : MMap LineId Edge
  back_edges : MMap LineId Edge
deriving DecidableEq, Repr

def DigleData.new : DigleData := ⟨[], [], MMap.new, MMap.new⟩

/-- A line id is known if it is live or tombstoned. -/
def Known (d : DigleData) (x : LineId) : Prop :=
  x ∈ d.lines ∨ x ∈ d.deleted_lines

instance (d : DigleData) (x : LineId) : Decidable (Known d x) := by
  unfold Known; infer_instance

/-- Representation invariant: all four containers well-formed. -/
def DigleData.WF (d : DigleData) : Prop :=
  d.lines.Pairwise (· < ·) ∧ d.deleted_lines.Pairwise (· < ·) ∧
    d.edges.WF ∧ d.back_edges.WF

instance (d : DigleData) : Decidable d.WF := by
  unfold DigleData.WF; infer_instance

/-- `Digle::out_edges`: live out-edges of `u`, read by stopping at the
first deleted edge of the ordered set. -/
def outEdges (d : DigleData) (u : LineId) : List Edge :=
  (d.edges.get u).takeWhile (fun e => !e.deleted)

/-- `Digle::all_out_edges`. -/
def allOutEdges (d : DigleData) (u : LineId) : List Edge :=
  d.edges.get u

/-- `Digle::in_edges`. -/
def inEdges (d : DigleData) (u : LineId) : List Edge :=
  (d.back_edges.get u).takeWhile (fun e => !e.deleted)

/-- `Digle::all_in_edges`. -/
def allInEdges (d : DigleData) (u : LineId) : List Edge :=
  d.back_edges.get u

/-- `Digle::is_live` (the caller must ensure `u` is known). -/
def isLive (d : DigleData) (u : LineId) : Bool :=
  decide (u ∈ d.lines)

/-- The conditions checked by `Digle::assert_consistent`: live and deleted
lines disjoint; every edge's endpoints known; every edge's `deleted` flag
agrees with its destination's tombstone status; forward and back edges in
one-to-one correspondence. -/
def Consistent (d : DigleData) : Prop :=
  (∀ x ∈ d.lines, x ∉ d.deleted_lines) ∧
  (∀ p ∈ d.edges.iter, Known d p.1 ∧ Known d p.2.dest ∧
      p.2.deleted = decide (p.2.dest ∈ d.deleted_lines) ∧
      d.back_edges.contains p.2.dest ⟨p.1, decide (p.1 ∈ d.deleted_lines)⟩ = true) ∧
  (∀ p ∈ d.back_edges.iter, Known d p.1 ∧ Known d p.2.dest ∧
      p.2.deleted = decide (p.2.dest ∈ d.deleted_lines) ∧
      d.edges.contains p.2.dest ⟨p.1, decide (p.1 ∈ d.deleted_lines)⟩ = true)

instance (d : DigleData) : Decidable (Consistent d) := by
  unfold Consistent; infer_instance

/-! ### The mutating primitives (`DigleMut`) -/

/-- `DigleMut::add_node`. -/
def addNode (d : DigleData) (id : LineId) : DigleData :=
  { d with lines := sortedInsert id d.lines }

/-- `DigleMut::unadd_node` (asserts `id ∈ lines`; that assertion is the
claims' precondition, not modelled as a panic). -/
def unaddNode (d : DigleData) (id : LineId) : DigleData :=
  { d with lines := setRemove id d.lines }

/-- `DigleMut::mark_back_edge`: flip the `deleted` flag of the back edge
`src → dst` to `delete` by a remove/insert pair. -/
def markBackEdge (d : DigleData) (src dst : LineId) (delete : Bool) : DigleData :=
  { d with back_edges :=
      (d.back_edges.remove src ⟨dst, !delete⟩).insert src ⟨dst, delete⟩ }

/-- `DigleMut::mark_edge`: the forward-edge analogue. -/
def markEdge (d : DigleData) (src dst : LineId) (delete : Bool) : DigleData :=
  { d with edges :=
      (d.edges.remove src ⟨dst, !delete⟩).insert src ⟨dst, delete⟩ }

/-- `DigleMut::delete_node`: move `id` to the tombstones and flip to
deleted every edge pointing at `id` (back edges at each out-neighbor,
forward edges at each in-neighbor). -/
def deleteNode (d : DigleData) (id : LineId) : DigleData :=
  let outs := (allOutEdges d id).map Edge.dest
  let ins := (allInEdges d id).map Edge.dest
  let d1 := { d with lines := setRemove id d.lines,
                     deleted_lines := sortedInsert id d.deleted_lines }
  let d2 := outs.foldl (fun s o => markBackEdge s o id true) d1
  ins.foldl (fun s i => markEdge s i id true) d2

/-- `DigleMut::undelete_node`: the inverse of `delete_node`. -/
def undeleteNode (d : DigleData) (id : LineId) : DigleData :=
  let outs := (allOutEdges d id).map Edge.dest
  let ins := (allInEdges d id).map Edge.dest
  let d1 := { d with deleted_lines := setRemove id d.deleted_lines,
                     lines := sortedInsert id d.lines }
  let d2 := outs.foldl (fun s o => markBackEdge s o id false) d1
  ins.foldl (fun s i => markEdge s i id false) d2

/-- `DigleMut::add_edge`: insert the forward edge and its matching back
edge, with `deleted` flags read off the endpoints' current status. -/
def addEdge (d : DigleData) (u v : LineId) : DigleData :=
  let fromDeleted := !(decide (u ∈ d.lines))
  let toDeleted := !(decide (v ∈ d.lines))
  { d with edges := d.edges.insert u ⟨v, toDeleted⟩,
           back_edges := d.back_edges.insert v ⟨u, fromDeleted⟩ }

/-- `DigleMut::unadd_edge`: remove the forward edge and its back edge. -/
def unaddEdge (d : DigleData) (u v : LineId) : DigleData :=
  let fromDeleted := !(decide (u ∈ d.lines))
  let toDeleted := !(decide (v ∈ d.lines))
  { d with edges := d.edges.remove u ⟨v, toDeleted⟩,
           back_edges := d.back_edges.remove v ⟨u, fromDeleted⟩ }

/-! ## Claims C1, C2, C9 -/

/-- Concrete consistent digle witnessing the edge-ordering defect: line 0
has a deleted out-edge to line 1 and a live out-edge to line 2, and the
derived order sorts the deleted edge first. -/
def exDigleC1 : DigleData :=
  { lines := [0, 2], deleted_lines := [1],
    edges := ⟨[(0, [⟨1, true⟩, ⟨2, false⟩])]⟩,
    back_edges := ⟨[(1, [⟨0, false⟩]), (2, [⟨0, false⟩])]⟩ }

/-- C1: FAILS on the code.  `out_edges` stops at the first deleted edge,
but the derived `Edge` order is `(dest, deleted)`-lexicographic, not
`(deleted, dest)`, so a deleted edge with a small destination hides every
live edge with a larger destination: in the consistent state `exDigleC1`,
`out_edges(0)` yields nothing although a live edge `0 → 2` exists. -/
theorem c1_outEdges_misses_live_edge :
    exDigleC1.WF ∧ Consistent exDigleC1 ∧
    outEdges exDigleC1 0 = [] ∧
    Edge.mk 2 false ∈ allOutEdges exDigleC1 0 ∧
    (Edge.mk 2 false).deleted = false := by
  refine ⟨by decide, by decide, by decide, by decide, rfl⟩

/-- C2: FAILS on the code.  `#[derive(Ord)]` on `Edge` compares fields in
declaration order, i.e. `dest` before `deleted`; therefore the deleted
edge `{dest 1, deleted}` sorts before the live edge `{dest 2, live}`,
contradicting the claimed `(deleted, dest)` lexicographic order under
which every live edge precedes every deleted one. -/
theorem c2_edge_order_is_dest_major :
    (Edge.mk 1 true < Edge.mk 2 false) ∧
    ¬(Edge.mk 2 false < Edge.mk 1 true) ∧
    edgeLtSpec (Edge.mk 2 false) (Edge.mk 1 true) = true ∧
    edgeLtSpec (Edge.mk 1 true) (Edge.mk 2 false) = false := by
  refine ⟨by decide, by decide, by decide, by decide⟩

/-- C9: `add_node` only inserts `id` into `lines`; the other three fields
are untouched for every input state, and no precondition is checked, so
adding an `id` that is currently tombstoned leaves it in both `lines` and
`deleted_lines`. -/
theorem c9_addNode_frame (d : DigleData) (id : LineId) :
    (addNode d id).lines = sortedInsert id d.lines ∧
    (addNode d id).deleted_lines = d.deleted_lines ∧
    (addNode d id).edges = d.edges ∧
    (addNode d id).back_edges = d.back_edges ∧
    id ∈ (addNode d id).lines ∧
    (id ∈ d.deleted_lines →
      id ∈ (addNode d id).lines ∧ id ∈ (addNode d id).deleted_lines) := by
  refine ⟨rfl, rfl, rfl, rfl, ?_, ?_⟩
  · exact (mem_sortedInsert id id d.lines).2 (Or.inl rfl)
  · intro h
    exact ⟨(mem_sortedInsert id id d.lines).2 (Or.inl rfl), h⟩

/-- Concrete state for the C9 witness: line 5 is tombstoned. -/
def exDigleC9 : DigleData := ⟨[], [5], MMap.new, MMap.new⟩

theorem c9_addNode_frame_witness :
    5 ∈ (addNode exDigleC9 5).lines ∧ 5 ∈ (addNode exDigleC9 5).deleted_lines :=
  (c9_addNode_frame exDigleC9 5).2.2.2.2.2 (by decide)

/-! ## MMap lemmas -/

theorem sortedInsert_ne_nil [LinearOrder α] (x : α) (l : List α) :
    sortedInsert x l ≠ [] := by
  cases l with
  | nil => simp [sortedInsert]
  | cons y ys =>
    simp only [sortedInsert]
    split
    · simp
    · split <;> simp

theorem lookupKey_eq_nil [LinearOrder K] (k : K) (l : List (K × List V))
    (h : ∀ p ∈ l, p.1 ≠ k) : lookupKey k l = [] := by
  induction l with
  | nil => rfl
  | cons p rest ih =>
    simp only [lookupKey]
    rw [if_neg (h p (List.mem_cons_self p rest))]
    exact ih fun q hq => h q (List.mem_cons_of_mem p hq)

theorem mem_insertPairs [LinearOrder K] [LinearOrder V] (k : K) (v : V)
    (l : List (K × List V)) (p : K × List V) (hp : p ∈ insertPairs k v l) :
    p.1 = k ∨ ∃ q ∈ l, p.1 = q.1 := by
  induction l with
  | nil =>
    simp only [insertPairs, List.mem_singleton] at hp
    exact Or.inl (by rw [hp])
  | cons q rest ih =>
    obtain ⟨k0, vs0⟩ := q
    simp only [insertPairs] at hp
    split at hp
    · rcases List.mem_cons.1 hp with rfl | hp
      · exact Or.inr ⟨(k0, vs0), List.mem_cons_self _ _, rfl⟩
      · exact Or.inr ⟨p, List.mem_cons_of_mem _ hp, rfl⟩
    · split at hp
      · rcases List.mem_cons.1 hp with rfl | hp
        · exact Or.inl rfl
        · exact Or.inr ⟨p, hp, rfl⟩
      · rcases List.mem_cons.1 hp with rfl | hp
        · exact Or.inr ⟨(k0, vs0), List.mem_cons_self _ _, rfl⟩
        · rcases ih hp with h | ⟨q, hq, hq'⟩
          · exact Or.inl h
          · exact Or.inr ⟨q, List.mem_cons_of_mem _ hq, hq'⟩

theorem lookup_insertPairs [LinearOrder K] [LinearOrder V] (k k' : K) (v : V)
    (l : List (K × List V)) (hl : l.Pairwise (fun p q => p.1 < q.1)) :
    lookupKey k' (insertPairs k v l) =
      if k' = k then sortedInsert v (lookupKey k l) else lookupKey k' l := by
  induction l with
  | nil =>
    by_cases h : k' = k
    · subst h; simp [insertPairs, lookupKey, sortedInsert]
    · have h2 : ¬(k = k') := fun hh => h hh.symm
      simp [insertPairs, lookupKey, h, h2]
  | cons q rest ih =>
    obtain ⟨k0, vs0⟩ := q
    rcases List.pairwise_cons.1 hl with ⟨hk0, hrest⟩
    simp only [insertPairs]
    rcases lt_trichotomy k k0 with hlt | heq | hgt
    · rw [if_neg (ne_of_lt hlt), if_pos hlt]
      by_cases h : k' = k
      · subst h
        have h0 : ¬(k0 = k') := ne_of_gt hlt
        have hnil : lookupKey k' rest = [] := by
          refine lookupKey_eq_nil _ _ ?_
          intro p hp
          exact ne_of_gt (lt_trans hlt (hk0 p hp))
        simp [lookupKey, h0, hnil, sortedInsert]
      · have h2 : ¬(k = k') := fun hh => h hh.symm
        simp [lookupKey, h, h2]
    · rw [if_pos heq]
      subst heq
      by_cases h : k' = k
      · subst h; simp [lookupKey]
      · have h2 : ¬(k = k') := fun hh => h hh.symm
        simp [lookupKey, h, h2]
    · rw [if_neg (ne_of_gt hgt), if_neg (not_lt.2 (le_of_lt hgt))]
      have h2 : ¬(k0 = k) := ne_of_lt hgt
      by_cases h0 : k0 = k'
      · subst h0
        have h3 : ¬(k0 = k) := ne_of_lt hgt
        simp [lookupKey, h3]
      · simp [lookupKey, h0, h2, ih hrest]

theorem lookup_removePairs [LinearOrder K] [LinearOrder V] (k k' : K) (v : V)
    (l : List (K × List V)) (hl : l.Pairwise (fun p q => p.1 < q.1)) :
    lookupKey k' (removePairs k v l) =
      if k' = k then setRemove v (lookupKey k l) else lookupKey k' l := by
  induction l with
  | nil =>
    by_cases h : k' = k
    · subst h; simp [removePairs, lookupKey, setRemove]
    · simp [removePairs, lookupKey, h]
  | cons q rest ih =>
    obtain ⟨k0, vs0⟩ := q
    rcases List.pairwise_cons.1 hl with ⟨hk0, hrest⟩
    simp only [removePairs]
    by_cases hkk0 : k = k0
    · subst hkk0
      have hnil : lookupKey k rest = [] := by
        refine lookupKey_eq_nil _ _ ?_
        intro p hp
        exact ne_of_gt (hk0 p hp)
      by_cases h : k' = k
      · subst h
        by_cases hemp : setRemove v vs0 = []
        · simp [hemp, lookupKey, hnil]
        · simp [hemp, lookupKey]
      · have h2 : ¬(k = k') := fun hh => h hh.symm
        by_cases hemp : setRemove v vs0 = []
        · simp [hemp, lookupKey, h, h2]
        · simp [hemp, lookupKey, h, h2]
    · have h3 : ¬(k0 = k) := fun hh => hkk0 hh.symm
      rw [if_neg hkk0]
      by_cases h0 : k0 = k'
      · subst h0
        simp [lookupKey, h3]
      · simp [lookupKey, h0, h3, ih hrest]

theorem lookup_filter_ne [LinearOrder K] (k k' : K) (l : List (K × List V))
    (h : k' ≠ k) :
    lookupKey k' (l.filter (fun p => decide (p.1 ≠ k))) = lookupKey k' l := by
  induction l with
  | nil => rfl
  | cons p rest ih =>
    rw [List.filter_cons]
    split
    · simp only [lookupKey]
      split
      · rfl
      · exact ih
    · next hcond =>
      have hp : p.1 = k := by simpa using hcond
      rw [ih]
      simp only [lookupKey]
      rw [if_neg (by rw [hp]; exact fun h' => h h'.symm)]

theorem lookup_filter_self [LinearOrder K] (k : K) (l : List (K × List V)) :
    lookupKey k (l.filter (fun p => decide (p.1 ≠ k))) = [] := by
  refine lookupKey_eq_nil k _ ?_
  intro p hp
  have := (List.mem_filter.1 hp).2
  simpa using this

/-- `get` after `insert`. -/
theorem MMap.get_insert [LinearOrder K] [LinearOrder V] (m : MMap K V)
    (hk : m.map.Pairwise (fun p q => p.1 < q.1)) (k k' : K) (v : V) :
    (m.insert k v).get k' =
      if k' = k then sortedInsert v (m.get k) else m.get k' :=
  lookup_insertPairs k k' v m.map hk

/-- `get` after `remove`. -/
theorem MMap.get_remove [LinearOrder K] [LinearOrder V] (m : MMap K V)
    (hk : m.map.Pairwise (fun p q => p.1 < q.1)) (k k' : K) (v : V) :
    (m.remove k v).get k' =
      if k' = k then setRemove v (m.get k) else m.get k' :=
  lookup_removePairs k k' v m.map hk

/-- `get` after `remove_all`. -/
theorem MMap.get_removeAll [LinearOrder K] [LinearOrder V] (m : MMap K V)
    (k k' : K) :
    (m.removeAll k).get k' = if k' = k then [] else m.get k' := by
  unfold MMap.removeAll MMap.get
  by_cases h : k' = k
  · rw [if_pos h]
    subst h
    exact lookup_filter_self k' m.map
  · rw [if_neg h]
    exact lookup_filter_ne k k' m.map h

theorem MMap.get_new [LinearOrder K] (k : K) : (MMap.new : MMap K V).get k = [] := rfl

theorem MMap.contains_iff [LinearOrder K] [LinearOrder V] (m : MMap K V) (k : K) (v : V) :
    m.contains k v = true ↔ v ∈ m.get k := by
  simp [MMap.contains]

/-! ### MMap well-formedness preservation and extensionality -/

theorem keys_insertPairs_pairwise [LinearOrder K] [LinearOrder V] (k : K) (v : V)
    (l : List (K × List V)) (hl : l.Pairwise (fun p q => p.1 < q.1)) :
    (insertPairs k v l).Pairwise (fun p q => p.1 < q.1) := by
  induction l with
  | nil => simp [insertPairs]
  | cons q rest ih =>
    obtain ⟨k0, vs0⟩ := q
    rcases List.pairwise_cons.1 hl with ⟨hk0, hrest⟩
    simp only [insertPairs]
    rcases lt_trichotomy k k0 with hlt | heq | hgt
    · rw [if_neg (ne_of_lt hlt), if_pos hlt]
      refine List.pairwise_cons.2 ⟨?_, hl⟩
      intro p hp
      rcases List.mem_cons.1 hp with rfl | hp
      · exact hlt
      · exact lt_trans hlt (hk0 p hp)
    · rw [if_pos heq]
      exact List.pairwise_cons.2 ⟨hk0, hrest⟩
    · rw [if_neg (ne_of_gt hgt), if_neg (not_lt.2 (le_of_lt hgt))]
      refine List.pairwise_cons.2 ⟨?_, ih hrest⟩
      intro p hp
      rcases mem_insertPairs k v rest p hp with h | ⟨q, hq, hq'⟩
      · exact h ▸ hgt
      · exact hq' ▸ hk0 q hq

theorem vals_insertPairs [LinearOrder K] [LinearOrder V] (k : K) (v : V)
    (l : List (K × List V))
    (hv : ∀ p ∈ l, p.2 ≠ [] ∧ p.2.Pairwise (· < ·)) :
    ∀ p ∈ insertPairs k v l, p.2 ≠ [] ∧ p.2.Pairwise (· < ·) := by
  induction l with
  | nil =>
    intro p hp
    simp only [insertPairs, List.mem_singleton] at hp
    subst hp
    exact ⟨by simp, by simp⟩
  | cons q rest ih =>
    obtain ⟨k0, vs0⟩ := q
    have hhead := hv (k0, vs0) (List.mem_cons_self _ _)
    have htail : ∀ p ∈ rest, p.2 ≠ [] ∧ p.2.Pairwise (· < ·) :=
      fun p hp => hv p (List.mem_cons_of_mem _ hp)
    intro p hp
    simp only [insertPairs] at hp
    split at hp
    · rcases List.mem_cons.1 hp with rfl | hp
      · exact ⟨sortedInsert_ne_nil v vs0, sortedInsert_pairwise v vs0 hhead.2⟩
      · exact htail p hp
    · split at hp
      · rcases List.mem_cons.1 hp with rfl | hp
        · exact ⟨by simp, by simp⟩
        · exact hv p hp
      · rcases List.mem_cons.1 hp with rfl | hp
        · exact hhead
        · exact ih htail p hp

theorem MMap.insert_wf [LinearOrder K] [LinearOrder V] (m : MMap K V) (k : K) (v : V)
    (h : m.WF) : (m.insert k v).WF :=
  ⟨keys_insertPairs_pairwise k v m.map h.1, vals_insertPairs k v m.map h.2⟩

theorem removePairs_sublist [LinearOrder K] [LinearOrder V] (k : K) (v : V)
    (l : List (K × List V)) :
    ∀ p ∈ removePairs k v l, p ∈ l ∨ ∃ q ∈ l, p.1 = q.1 ∧ p.2 = setRemove v q.2 := by
  induction l with
  | nil => intro p hp; cases hp
  | cons q rest ih =>
    obtain ⟨k0, vs0⟩ := q
    intro p hp
    simp only [removePairs] at hp
    split at hp
    · split at hp
      · exact Or.inl (List.mem_cons_of_mem _ hp)
      · rcases List.mem_cons.1 hp with rfl | hp
        · exact Or.inr ⟨(k0, vs0), List.mem_cons_self _ _, rfl, rfl⟩
        · exact Or.inl (List.mem_cons_of_mem _ hp)
    · rcases List.mem_cons.1 hp with rfl | hp
      · exact Or.inl (List.mem_cons_self _ _)
      · rcases ih p hp with h | ⟨q, hq, h1, h2⟩
        · exact Or.inl (List.mem_cons_of_mem _ h)
        · exact Or.inr ⟨q, List.mem_cons_of_mem _ hq, h1, h2⟩

theorem keys_removePairs_pairwise [LinearOrder K] [LinearOrder V] (k : K) (v : V)
    (l : List (K × List V)) (hl : l.Pairwise (fun p q => p.1 < q.1)) :
    (removePairs k v l).Pairwise (fun p q => p.1 < q.1) := by
  induction l with
  | nil => simp [removePairs]
  | cons q rest ih =>
    obtain ⟨k0, vs0⟩ := q
    rcases List.pairwise_cons.1 hl with ⟨hk0, hrest⟩
    simp only [removePairs]
    split
    · split
      · exact hrest
      · exact List.pairwise_cons.2 ⟨hk0, hrest⟩
    · refine List.pairwise_cons.2 ⟨?_, ih hrest⟩
      intro p hp
      rcases removePairs_sublist k v rest p hp with h | ⟨q, hq, h1, _⟩
      · exact hk0 p h
      · exact h1 ▸ hk0 q hq

theorem vals_removePairs [LinearOrder K] [LinearOrder V] (k : K) (v : V)
    (l : List (K × List V))
    (hv : ∀ p ∈ l, p.2 ≠ [] ∧ p.2.Pairwise (· < ·)) :
    ∀ p ∈ removePairs k v l, p.2 ≠ [] ∧ p.2.Pairwise (· < ·) := by
  induction l with
  | nil => intro p hp; cases hp
  | cons q rest ih =>
    obtain ⟨k0, vs0⟩ := q
    have hhead := hv (k0, vs0) (List.mem_cons_self _ _)
    have htail : ∀ p ∈ rest, p.2 ≠ [] ∧ p.2.Pairwise (· < ·) :=
      fun p hp => hv p (List.mem_cons_of_mem _ hp)
    intro p hp
    simp only [removePairs] at hp
    split at hp
    · split at hp
      · exact htail p hp
      · next hne =>
        rcases List.mem_cons.1 hp with rfl | hp
        · exact ⟨hne, setRemove_pairwise v vs0 hhead.2⟩
        · exact htail p hp
    · rcases List.mem_cons.1 hp with rfl | hp
      · exact hhead
      · exact ih htail p hp

theorem MMap.remove_wf [LinearOrder K] [LinearOrder V] (m : MMap K V) (k : K) (v : V)
    (h : m.WF) : (m.remove k v).WF :=
  ⟨keys_removePairs_pairwise k v m.map h.1, vals_removePairs k v m.map h.2⟩

theorem MMap.removeAll_wf [LinearOrder K] [LinearOrder V] (m : MMap K V) (k : K)
    (h : m.WF) : (m.removeAll k).WF := by
  refine ⟨List.Pairwise.sublist (List.filter_sublist _) h.1, ?_⟩
  intro p hp
  exact h.2 p (List.mem_of_mem_filter hp)

theorem MMap.new_wf [LinearOrder K] [LinearOrder V] : (MMap.new : MMap K V).WF :=
  ⟨List.Pairwise.nil, by intro p hp; cases hp⟩

/-- Two well-formed association lists with the same lookups are equal. -/
theorem assoc_ext [LinearOrder K] [LinearOrder V] (l l' : List (K × List V))
    (hl : l.Pairwise (fun p q => p.1 < q.1)) (hl' : l'.Pairwise (fun p q => p.1 < q.1))
    (hne : ∀ p ∈ l, p.2 ≠ []) (hne' : ∀ p ∈ l', p.2 ≠ [])
    (h : ∀ k, lookupKey k l = lookupKey k l') : l = l' := by
  induction l generalizing l' with
  | nil =>
    cases l' with
    | nil => rfl
    | cons q rest =>
      obtain ⟨k0, vs0⟩ := q
      have := h k0
      simp only [lookupKey, if_pos rfl] at this
      exact absurd this.symm (hne' (k0, vs0) (List.mem_cons_self _ _))
  | cons q rest ih =>
    obtain ⟨k0, vs0⟩ := q
    rcases List.pairwise_cons.1 hl with ⟨hk0, hrest⟩
    cases l' with
    | nil =>
      have := h k0
      simp only [lookupKey, if_pos rfl] at this
      exact absurd this (hne (k0, vs0) (List.mem_cons_self _ _))
    | cons q' rest' =>
      obtain ⟨k1, vs1⟩ := q'
      rcases List.pairwise_cons.1 hl' with ⟨hk1, hrest'⟩
      have hkeq : k0 = k1 := by
        by_contra hne01
        rcases lt_or_gt_of_ne hne01 with hlt | hgt
        · have h0 := h k0
          simp only [lookupKey, if_pos rfl] at h0
          rw [if_neg (ne_of_gt hlt)] at h0
          have : lookupKey k0 rest' = [] := by
            refine lookupKey_eq_nil _ _ ?_
            intro p hp
            exact ne_of_gt (lt_trans hlt (hk1 p hp))
          rw [this] at h0
          exact absurd h0 (hne (k0, vs0) (List.mem_cons_self _ _))
        · have h1 := h k1
          simp only [lookupKey, if_pos rfl] at h1
          rw [if_neg (ne_of_gt hgt)] at h1
          have : lookupKey k1 rest = [] := by
            refine lookupKey_eq_nil _ _ ?_
            intro p hp
            exact ne_of_gt (lt_trans hgt (hk0 p hp))
          rw [this] at h1
          exact absurd h1.symm (hne' (k1, vs1) (List.mem_cons_self _ _))
      subst hkeq
      have hveq : vs0 = vs1 := by
        have h0 := h k0
        simpa only [lookupKey, if_pos rfl] using h0
      subst hveq
      have htails : ∀ k, lookupKey k rest = lookupKey k rest' := by
        intro k
        by_cases hk : k0 = k
        · subst hk
          rw [lookupKey_eq_nil k0 rest (fun p hp => ne_of_gt (hk0 p hp)),
              lookupKey_eq_nil k0 rest' (fun p hp => ne_of_gt (hk1 p hp))]
        · have := h k
          simpa only [lookupKey, if_neg hk] using this
      rw [ih rest' hrest hrest' (fun p hp => hne p (List.mem_cons_of_mem _ hp))
        (fun p hp => hne' p (List.mem_cons_of_mem _ hp)) htails]

/-- Well-formed multimaps are determined by their `get` function. -/
theorem MMap.ext_get [LinearOrder K] [LinearOrder V] (m m' : MMap K V)
    (hm : m.WF) (hm' : m'.WF) (h : ∀ k, m.get k = m'.get k) : m = m' := by
  cases m with | mk l =>
  cases m' with | mk l' =>
  have : l = l' :=
    assoc_ext l l' hm.1 hm'.1 (fun p hp => (hm.2 p hp).1)
      (fun p hp => (hm'.2 p hp).1) h
  rw [this]

/-! ### Iteration lemmas -/

theorem mem_flat_pairs [LinearOrder K] (l : List (K × List V)) (k : K) (v : V) :
    (k, v) ∈ l.flatMap (fun p => p.2.map (fun w => (p.1, w))) ↔
      ∃ vs, (k, vs) ∈ l ∧ v ∈ vs := by
  induction l with
  | nil => simp
  | cons q rest ih =>
    obtain ⟨k0, vs0⟩ := q
    simp only [List.flatMap_cons, List.mem_append, List.mem_map, ih, List.mem_cons,
      Prod.mk.injEq]
    constructor
    · rintro (⟨w, hw, h1, h2⟩ | ⟨vs, hvs, hv⟩)
      · exact ⟨vs0, Or.inl ⟨h1.symm, rfl⟩, h2 ▸ hw⟩
      · exact ⟨vs, Or.inr hvs, hv⟩
    · rintro ⟨vs, ⟨h1, h2⟩ | hvs, hv⟩
      · subst h1; subst h2
        exact Or.inl ⟨v, hv, rfl, rfl⟩
      · exact Or.inr ⟨vs, hvs, hv⟩

theorem lookupKey_of_mem [LinearOrder K] (l : List (K × List V))
    (hk : l.Pairwise (fun p q => p.1 < q.1)) (k : K) (vs : List V)
    (h : (k, vs) ∈ l) : lookupKey k l = vs := by
  induction l with
  | nil => cases h
  | cons q rest ih =>
    rcases List.pairwise_cons.1 hk with ⟨hq, hrest⟩
    rcases List.mem_cons.1 h with rfl | h
    · simp [lookupKey]
    · have : q.1 ≠ k := ne_of_lt (hq (k, vs) h)
      simp only [lookupKey, if_neg this]
      exact ih hrest h

theorem mem_of_mem_lookup [LinearOrder K] (l : List (K × List V)) (k : K) (v : V)
    (h : v ∈ lookupKey k l) :
    (k, v) ∈ l.flatMap (fun p => p.2.map (fun w => (p.1, w))) := by
  induction l with
  | nil => cases h
  | cons q rest ih =>
    simp only [lookupKey] at h
    simp only [List.flatMap_cons, List.mem_append, List.mem_map]
    split at h
    · next heq => exact Or.inl ⟨v, h, by rw [heq]⟩
    · exact Or.inr (ih h)

/-- Under key-sortedness, iteration and lookup agree. -/
theorem MMap.mem_iter [LinearOrder K] [LinearOrder V] (m : MMap K V)
    (hk : m.map.Pairwise (fun p q => p.1 < q.1)) (k : K) (v : V) :
    (k, v) ∈ m.iter ↔ v ∈ m.get k := by
  constructor
  · intro h
    obtain ⟨vs, hvs, hv⟩ := (mem_flat_pairs m.map k v).1 h
    rw [MMap.get, lookupKey_of_mem m.map hk k vs hvs]
    exact hv
  · exact mem_of_mem_lookup m.map k v

/-! ## Claim C8: MMap canonical form -/

/-- States reachable from `MMap::new` by the mutating operations. -/
inductive BuiltMMap {K V : Type} [LinearOrder K] [LinearOrder V] : MMap K V → Prop
  | new : BuiltMMap MMap.new
  | insert (m : MMap K V) (k : K) (v : V) : BuiltMMap m → BuiltMMap (m.insert k v)
  | remove (m : MMap K V) (k : K) (v : V) : BuiltMMap m → BuiltMMap (m.remove k v)
  | removeAll (m : MMap K V) (k : K) : BuiltMMap m → BuiltMMap (m.removeAll k)

theorem BuiltMMap.wf {K V : Type} [LinearOrder K] [LinearOrder V] {m : MMap K V}
    (h : BuiltMMap m) : m.WF := by
  induction h with
  | new => exact MMap.new_wf
  | insert m k v _ ih => exact MMap.insert_wf m k v ih
  | remove m k v _ ih => exact MMap.remove_wf m k v ih
  | removeAll m k _ ih => exact MMap.removeAll_wf m k ih

/-- C8: after any sequence of `insert`/`remove`/`remove_all` starting from
`MMap::new`, no key of the underlying map is bound to an empty value set,
and consequently structural equality of two such maps coincides with
equality of the partial functions (`get`) they represent. -/
theorem c8_mmap_no_empty_sets {K V : Type} [LinearOrder K] [LinearOrder V]
    (m m' : MMap K V) (hm : BuiltMMap m) (hm' : BuiltMMap m') :
    (∀ p ∈ m.map, p.2 ≠ []) ∧ ((∀ k, m.get k = m'.get k) ↔ m = m') := by
  refine ⟨fun p hp => (hm.wf.2 p hp).1, ?_, ?_⟩
  · exact fun h => MMap.ext_get m m' hm.wf hm'.wf h
  · intro h k; rw [h]

theorem c8_mmap_no_empty_sets_witness :
    (∀ p ∈ ((MMap.new : MMap Nat Nat).insert 1 2).map, p.2 ≠ []) ∧
    ((∀ k, ((MMap.new : MMap Nat Nat).insert 1 2).get k =
        (((MMap.new : MMap Nat Nat).insert 1 2).remove 1 3).get k) ↔
      (MMap.new : MMap Nat Nat).insert 1 2 =
        ((MMap.new : MMap Nat Nat).insert 1 2).remove 1 3) :=
  c8_mmap_no_empty_sets _ _ (BuiltMMap.insert _ 1 2 BuiltMMap.new)
    (BuiltMMap.remove _ 1 3 (BuiltMMap.insert _ 1 2 BuiltMMap.new))

/-! ## Serialization (claim C7) -/

/-- Two strictly sorted lists with the same members are equal. -/
theorem strictSorted_ext [LinearOrder α] (l l' : List α)
    (hl : l.Pairwise (· < ·)) (hl' : l'.Pairwise (· < ·))
    (h : ∀ a, a ∈ l ↔ a ∈ l') : l = l' := by
  induction l generalizing l' with
  | nil =>
    cases l' with
    | nil => rfl
    | cons y ys => exact absurd ((h y).2 (List.mem_cons_self y ys)) (List.not_mem_nil y)
  | cons x xs ih =>
    rcases List.pairwise_cons.1 hl with ⟨hx, hxs⟩
    cases l' with
    | nil => exact absurd ((h x).1 (List.mem_cons_self x xs)) (List.not_mem_nil x)
    | cons y ys =>
      rcases List.pairwise_cons.1 hl' with ⟨hy, hys⟩
      have hxy : x = y := by
        rcases List.mem_cons.1 ((h x).1 (List.mem_cons_self x xs)) with h1 | h1
        · exact h1
        · rcases List.mem_cons.1 ((h y).2 (List.mem_cons_self y ys)) with h2 | h2
          · exact h2.symm
          · exact absurd (lt_trans (hy x h1) (hx y h2)) (lt_irrefl y)
      subst hxy
      have htail : ∀ a, a ∈ xs ↔ a ∈ ys := by
        intro a
        constructor
        · intro ha
          rcases List.mem_cons.1 ((h a).1 (List.mem_cons_of_mem x ha)) with h1 | h1
          · exact absurd (h1 ▸ hx a ha) (lt_irrefl a)
          · exact h1
        · intro ha
          rcases List.mem_cons.1 ((h a).2 (List.mem_cons_of_mem x ha)) with h1 | h1
          · exact absurd (h1 ▸ hy a ha) (lt_irrefl a)
          · exact h1
      rw [ih ys hxs hys htail]

theorem lookupKey_sorted [LinearOrder K] [LinearOrder V] (l : List (K × List V))
    (hv : ∀ p ∈ l, p.2.Pairwise (· < ·)) (k : K) :
    (lookupKey k l).Pairwise (· < ·) := by
  induction l with
  | nil => exact List.Pairwise.nil
  | cons p rest ih =>
    simp only [lookupKey]
    split
    · exact hv p (List.mem_cons_self p rest)
    · exact ih (fun q hq => hv q (List.mem_cons_of_mem p hq))

/-- The value list at any key of a well-formed multimap is strictly sorted. -/
theorem MMap.get_sorted [LinearOrder K] [LinearOrder V] (m : MMap K V)
    (h : m.WF) (k : K) : (m.get k).Pairwise (· < ·) :=
  lookupKey_sorted m.map (fun p hp => (h.2 p hp).2) k

/-- `BTreeSet` deserialization: repeated insertion. -/
def listToSet [LinearOrder α] (l : List α) : List α :=
  l.foldl (fun s x => sortedInsert x s) []

theorem foldl_sortedInsert_pairwise [LinearOrder α] (l s : List α)
    (hs : s.Pairwise (· < ·)) :
    (l.foldl (fun s x => sortedInsert x s) s).Pairwise (· < ·) := by
  induction l generalizing s with
  | nil => exact hs
  | cons x xs ih => exact ih (sortedInsert x s) (sortedInsert_pairwise x s hs)

theorem mem_foldl_sortedInsert [LinearOrder α] (l s : List α) (a : α) :
    a ∈ l.foldl (fun s x => sortedInsert x s) s ↔ a ∈ l ∨ a ∈ s := by
  induction l generalizing s with
  | nil => simp
  | cons x xs ih =>
    simp only [List.foldl_cons, ih, mem_sortedInsert, List.mem_cons]
    tauto

theorem listToSet_pairwise [LinearOrder α] (l : List α) :
    (listToSet l).Pairwise (· < ·) :=
  foldl_sortedInsert_pairwise l [] List.Pairwise.nil

theorem listToSet_roundtrip [LinearOrder α] (l : List α)
    (hl : l.Pairwise (· < ·)) : listToSet l = l := by
  refine strictSorted_ext _ _ (listToSet_pairwise l) hl ?_
  intro a
  rw [listToSet, mem_foldl_sortedInsert]
  simp

/-- `MMap` deserialization: fold of `insert` over the flat pair sequence,
starting from the empty map (the wire order of the pairs is immaterial). -/
def MMap.deserialize [LinearOrder K] [LinearOrder V] (l : List (K × V)) : MMap K V :=
  l.foldl (fun m p => m.insert p.1 p.2) MMap.new

theorem foldl_insert_wf [LinearOrder K] [LinearOrder V] (l : List (K × V))
    (m : MMap K V) (hm : m.WF) :
    (l.foldl (fun m p => m.insert p.1 p.2) m).WF := by
  induction l generalizing m with
  | nil => exact hm
  | cons p rest ih => exact ih _ (MMap.insert_wf m p.1 p.2 hm)

theorem MMap.deserialize_wf [LinearOrder K] [LinearOrder V] (l : List (K × V)) :
    (MMap.deserialize l).WF :=
  foldl_insert_wf l MMap.new MMap.new_wf

theorem mem_get_foldl_insert [LinearOrder K] [LinearOrder V] (l : List (K × V))
    (m : MMap K V) (hm : m.WF) (k : K) (v : V) :
    v ∈ (l.foldl (fun m p => m.insert p.1 p.2) m).get k ↔
      (k, v) ∈ l ∨ v ∈ m.get k := by
  induction l generalizing m with
  | nil => simp
  | cons p rest ih =>
    simp only [List.foldl_cons, ih (m.insert p.1 p.2) (MMap.insert_wf m p.1 p.2 hm),
      List.mem_cons]
    rw [MMap.get_insert m hm.1 p.1 k p.2]
    by_cases hk : k = p.1
    · subst hk
      rw [if_pos rfl, mem_sortedInsert]
      constructor
      · rintro (h | h | h)
        · exact Or.inl (Or.inr h)
        · exact Or.inl (Or.inl (by rw [h]))
        · exact Or.inr h
      · rintro ((h | h) | h)
        · exact Or.inr (Or.inl (congrArg Prod.snd h))
        · exact Or.inl h
        · exact Or.inr (Or.inr h)
    · rw [if_neg hk]
      constructor
      · rintro (h | h)
        · exact Or.inl (Or.inr h)
        · exact Or.inr h
      · rintro ((h | h) | h)
        · exact absurd (congrArg Prod.fst h) hk
        · exact Or.inl h
        · exact Or.inr h

theorem mem_get_deserialize [LinearOrder K] [LinearOrder V] (l : List (K × V))
    (k : K) (v : V) : v ∈ (MMap.deserialize l).get k ↔ (k, v) ∈ l := by
  rw [MMap.deserialize, mem_get_foldl_insert l MMap.new MMap.new_wf]
  simp [MMap.get_new]

/-- Deserialization rebuilds a well-formed multimap from its own
iteration order. -/
theorem MMap.deserialize_iter [LinearOrder K] [LinearOrder V] (m : MMap K V)
    (hm : m.WF) : MMap.deserialize m.iter = m := by
  refine MMap.ext_get _ _ (MMap.deserialize_wf m.iter) hm ?_
  intro k
  refine strictSorted_ext _ _ (MMap.get_sorted _ (MMap.deserialize_wf m.iter) k)
    (MMap.get_sorted m hm k) ?_
  intro v
  rw [mem_get_deserialize, MMap.mem_iter m hm.1]

/-- Deserialization is invariant under permutation of the wire pairs. -/
theorem MMap.deserialize_perm [LinearOrder K] [LinearOrder V]
    (l l' : List (K × V)) (h : l.Perm l') :
    MMap.deserialize l = MMap.deserialize l' := by
  refine MMap.ext_get _ _ (MMap.deserialize_wf l) (MMap.deserialize_wf l') ?_
  intro k
  refine strictSorted_ext _ _ (MMap.get_sorted _ (MMap.deserialize_wf l) k)
    (MMap.get_sorted _ (MMap.deserialize_wf l') k) ?_
  intro v
  rw [mem_get_deserialize, mem_get_deserialize]
  exact ⟨fun hx => h.mem_iff.1 hx, fun hx => h.mem_iff.2 hx⟩

/-- The wire shape of a digle: the four fields in order, sets as ordered
sequences, multimaps flattened to `(key, value)` pairs. -/
def DigleData.serialize (d : DigleData) :
    List LineId × List LineId × List (LineId × Edge) × List (LineId × Edge) :=
  (d.lines, d.deleted_lines, d.edges.iter, d.back_edges.iter)

/-- Deserialization of a digle: rebuild each container by repeated
insertion. -/
def DigleData.deserialize
    (t : List LineId × List LineId × List (LineId × Edge) × List (LineId × Edge)) :
    DigleData :=
  ⟨listToSet t.1, listToSet t.2.1, MMap.deserialize t.2.2.1, MMap.deserialize t.2.2.2⟩

/-- C7: serialization round-trips: deserializing the serialized form of a
well-formed digle is the identity; likewise any multimap reachable by
`insert`/`remove`/`remove_all` is rebuilt exactly from its flat pair
sequence by repeated insert; and deserialization accepts the pairs in any
order. -/
theorem c7_serialization_roundtrip :
    (∀ d : DigleData, d.WF → DigleData.deserialize d.serialize = d) ∧
    (∀ m : MMap LineId Edge, BuiltMMap m → MMap.deserialize m.iter = m) ∧
    (∀ l l' : List (LineId × Edge), l.Perm l' →
      MMap.deserialize l = MMap.deserialize l') := by
  refine ⟨?_, ?_, ?_⟩
  · intro d hd
    obtain ⟨h1, h2, h3, h4⟩ := hd
    cases d with | mk a b c e =>
    simp only [DigleData.serialize, DigleData.deserialize] at *
    rw [listToSet_roundtrip a h1, listToSet_roundtrip b h2,
      MMap.deserialize_iter c h3, MMap.deserialize_iter e h4]
  · intro m hm
    exact MMap.deserialize_iter m hm.wf
  · exact MMap.deserialize_perm

theorem c7_serialization_roundtrip_witness :
    DigleData.deserialize (DigleData.serialize exDigleC1) = exDigleC1 ∧
    MMap.deserialize (MMap.iter ((MMap.new : MMap LineId Edge).insert 7 ⟨3, false⟩)) =
      (MMap.new : MMap LineId Edge).insert 7 ⟨3, false⟩ ∧
    MMap.deserialize [(1, Edge.mk 2 false), (4, Edge.mk 5 true)] =
      MMap.deserialize [(4, Edge.mk 5 true), (1, Edge.mk 2 false)] :=
  ⟨c7_serialization_roundtrip.1 exDigleC1 (by decide),
   c7_serialization_roundtrip.2.1 _ (BuiltMMap.insert _ 7 ⟨3, false⟩ BuiltMMap.new),
   c7_serialization_roundtrip.2.2 _ _ (by decide)⟩

/-! ## Digle invariant infrastructure (claims C4, C5) -/

/-- `Consistent` restated through `get`-membership; equivalent to the
iterator phrasing under well-formedness. -/
def ConsistentG (d : DigleData) : Prop :=
  (∀ x ∈ d.lines, x ∉ d.deleted_lines) ∧
  (∀ u e, e ∈ d.edges.get u → Known d u ∧ Known d e.dest ∧
      e.deleted = decide (e.dest ∈ d.deleted_lines) ∧
      Edge.mk u (decide (u ∈ d.deleted_lines)) ∈ d.back_edges.get e.dest) ∧
  (∀ u e, e ∈ d.back_edges.get u → Known d u ∧ Known d e.dest ∧
      e.deleted = decide (e.dest ∈ d.deleted_lines) ∧
      Edge.mk u (decide (u ∈ d.deleted_lines)) ∈ d.edges.get e.dest)

theorem consistent_iff_g (d : DigleData) (hwf : d.WF) :
    Consistent d ↔ ConsistentG d := by
  obtain ⟨hl, hdl, hew, hbw⟩ := hwf
  unfold Consistent ConsistentG
  constructor
  · rintro ⟨h1, h2, h3⟩
    refine ⟨h1, ?_, ?_⟩
    · intro u e he
      have := h2 (u, e) ((MMap.mem_iter d.edges hew.1 u e).2 he)
      exact ⟨this.1, this.2.1, this.2.2.1,
        (MMap.contains_iff _ _ _).1 this.2.2.2⟩
    · intro u e he
      have := h3 (u, e) ((MMap.mem_iter d.back_edges hbw.1 u e).2 he)
      exact ⟨this.1, this.2.1, this.2.2.1,
        (MMap.contains_iff _ _ _).1 this.2.2.2⟩
  · rintro ⟨h1, h2, h3⟩
    refine ⟨h1, ?_, ?_⟩
    · intro p hp
      have := h2 p.1 p.2 ((MMap.mem_iter d.edges hew.1 p.1 p.2).1 hp)
      exact ⟨this.1, this.2.1, this.2.2.1,
        (MMap.contains_iff _ _ _).2 this.2.2.2⟩
    · intro p hp
      have := h3 p.1 p.2 ((MMap.mem_iter d.back_edges hbw.1 p.1 p.2).1 hp)
      exact ⟨this.1, this.2.1, this.2.2.1,
        (MMap.contains_iff _ _ _).2 this.2.2.2⟩

/-- For a known line, the `!lines.contains` flag computed by
`add_edge`/`unadd_edge` equals the tombstone status. -/
theorem flag_of_known (d : DigleData) (h1 : ∀ x ∈ d.lines, x ∉ d.deleted_lines)
    (x : LineId) (hx : Known d x) :
    (!(decide (x ∈ d.lines))) = decide (x ∈ d.deleted_lines) := by
  by_cases hl : x ∈ d.lines
  · simp [hl, h1 x hl]
  · rcases hx with h | h
    · exact absurd h hl
    · simp [hl, h]

/-- Destinations of a single key's edge set are distinct whenever the
`deleted` flag is a function of the destination. -/
theorem dests_nodup (l : List Edge) (hs : l.Pairwise (· < ·))
    (hf : ∀ e ∈ l, ∀ e' ∈ l, e.dest = e'.dest → e = e') :
    (l.map Edge.dest).Nodup := by
  have h1 : l.Pairwise (fun e e' : Edge => e.dest ≠ e'.dest) := by
    refine List.Pairwise.imp_of_mem ?_ hs
    intro a b ha hb hab hdd
    exact absurd (hf a ha b hb hdd) (ne_of_lt hab)
  exact List.pairwise_map.2 h1

theorem markBackEdge_get (d : DigleData) (hwf : d.back_edges.WF)
    (src dst : LineId) (f : Bool) (q : LineId) :
    (markBackEdge d src dst f).back_edges.get q =
      if q = src then sortedInsert ⟨dst, f⟩ (setRemove ⟨dst, !f⟩ (d.back_edges.get q))
      else d.back_edges.get q := by
  have hrw := MMap.remove_wf d.back_edges src ⟨dst, !f⟩ hwf
  show ((d.back_edges.remove src ⟨dst, !f⟩).insert src ⟨dst, f⟩).get q = _
  rw [MMap.get_insert _ hrw.1 src q ⟨dst, f⟩]
  by_cases h : q = src
  · subst h
    rw [if_pos rfl, if_pos rfl, MMap.get_remove d.back_edges hwf.1 q q ⟨dst, !f⟩,
      if_pos rfl]
  · rw [if_neg h, if_neg h, MMap.get_remove d.back_edges hwf.1 src q ⟨dst, !f⟩,
      if_neg h]

theorem markEdge_get (d : DigleData) (hwf : d.edges.WF)
    (src dst : LineId) (f : Bool) (q : LineId) :
    (markEdge d src dst f).edges.get q =
      if q = src then sortedInsert ⟨dst, f⟩ (setRemove ⟨dst, !f⟩ (d.edges.get q))
      else d.edges.get q := by
  have hrw := MMap.remove_wf d.edges src ⟨dst, !f⟩ hwf
  show ((d.edges.remove src ⟨dst, !f⟩).insert src ⟨dst, f⟩).get q = _
  rw [MMap.get_insert _ hrw.1 src q ⟨dst, f⟩]
  by_cases h : q = src
  · subst h
    rw [if_pos rfl, if_pos rfl, MMap.get_remove d.edges hwf.1 q q ⟨dst, !f⟩,
      if_pos rfl]
  · rw [if_neg h, if_neg h, MMap.get_remove d.edges hwf.1 src q ⟨dst, !f⟩,
      if_neg h]

theorem foldl_markBack_fields (outs : List LineId) (d : DigleData) (dst : LineId)
    (f : Bool) :
    (outs.foldl (fun s o => markBackEdge s o dst f) d).lines = d.lines ∧
    (outs.foldl (fun s o => markBackEdge s o dst f) d).deleted_lines = d.deleted_lines ∧
    (outs.foldl (fun s o => markBackEdge s o dst f) d).edges = d.edges := by
  induction outs generalizing d with
  | nil => exact ⟨rfl, rfl, rfl⟩
  | cons o rest ih => exact ih (markBackEdge d o dst f)

theorem foldl_markEdge_fields (ins : List LineId) (d : DigleData) (dst : LineId)
    (f : Bool) :
    (ins.foldl (fun s i => markEdge s i dst f) d).lines = d.lines ∧
    (ins.foldl (fun s i => markEdge s i dst f) d).deleted_lines = d.deleted_lines ∧
    (ins.foldl (fun s i => markEdge s i dst f) d).back_edges = d.back_edges := by
  induction ins generalizing d with
  | nil => exact ⟨rfl, rfl, rfl⟩
  | cons i rest ih => exact ih (markEdge d i dst f)

theorem foldl_markBack_wf (outs : List LineId) (dst : LineId) (f : Bool) :
    ∀ d : DigleData, d.back_edges.WF →
      (outs.foldl (fun s o => markBackEdge s o dst f) d).back_edges.WF := by
  induction outs with
  | nil => exact fun d h => h
  | cons o rest ih =>
    intro d hwf
    exact ih (markBackEdge d o dst f)
      (MMap.insert_wf _ _ _ (MMap.remove_wf _ _ _ hwf))

theorem foldl_markEdge_wf (ins : List LineId) (dst : LineId) (f : Bool) :
    ∀ d : DigleData, d.edges.WF →
      (ins.foldl (fun s i => markEdge s i dst f) d).edges.WF := by
  induction ins with
  | nil => exact fun d h => h
  | cons i rest ih =>
    intro d hwf
    exact ih (markEdge d i dst f)
      (MMap.insert_wf _ _ _ (MMap.remove_wf _ _ _ hwf))

theorem foldl_markBack_get (outs : List LineId) (dst : LineId) (f : Bool) :
    outs.Nodup → ∀ d : DigleData, d.back_edges.WF → ∀ q : LineId,
      (outs.foldl (fun s o => markBackEdge s o dst f) d).back_edges.get q =
        if q ∈ outs then
          sortedInsert ⟨dst, f⟩ (setRemove ⟨dst, !f⟩ (d.back_edges.get q))
        else d.back_edges.get q := by
  induction outs with
  | nil => intro _ d _ q; simp
  | cons o rest ih =>
    intro hnd d hwf q
    rcases List.nodup_cons.1 hnd with ⟨ho, hrest⟩
    have hwf' : (markBackEdge d o dst f).back_edges.WF :=
      MMap.insert_wf _ _ _ (MMap.remove_wf _ _ _ hwf)
    simp only [List.foldl_cons]
    rw [ih hrest (markBackEdge d o dst f) hwf' q]
    by_cases hq : q ∈ rest
    · have hqo : q ≠ o := fun h => ho (h ▸ hq)
      rw [if_pos hq, if_pos (List.mem_cons_of_mem o hq),
        markBackEdge_get d hwf o dst f q, if_neg hqo]
    · rw [if_neg hq]
      by_cases hqo : q = o
      · subst hqo
        rw [if_pos (List.mem_cons_self q rest), markBackEdge_get d hwf q dst f q,
          if_pos rfl]
      · rw [if_neg (by simp [hqo, hq]), markBackEdge_get d hwf o dst f q, if_neg hqo]

theorem foldl_markEdge_get (ins : List LineId) (dst : LineId) (f : Bool) :
    ins.Nodup → ∀ d : DigleData, d.edges.WF → ∀ q : LineId,
      (ins.foldl (fun s i => markEdge s i dst f) d).edges.get q =
        if q ∈ ins then
          sortedInsert ⟨dst, f⟩ (setRemove ⟨dst, !f⟩ (d.edges.get q))
        else d.edges.get q := by
  induction ins with
  | nil => intro _ d _ q; simp
  | cons i rest ih =>
    intro hnd d hwf q
    rcases List.nodup_cons.1 hnd with ⟨hi, hrest⟩
    have hwf' : (markEdge d i dst f).edges.WF :=
      MMap.insert_wf _ _ _ (MMap.remove_wf _ _ _ hwf)
    simp only [List.foldl_cons]
    rw [ih hrest (markEdge d i dst f) hwf' q]
    by_cases hq : q ∈ rest
    · have hqi : q ≠ i := fun h => hi (h ▸ hq)
      rw [if_pos hq, if_pos (List.mem_cons_of_mem i hq),
        markEdge_get d hwf i dst f q, if_neg hqi]
    · rw [if_neg hq]
      by_cases hqi : q = i
      · subst hqi
        rw [if_pos (List.mem_cons_self q rest), markEdge_get d hwf q dst f q,
          if_pos rfl]
      · rw [if_neg (by simp [hqi, hq]), markEdge_get d hwf i dst f q, if_neg hqi]

/-- Out-neighbor destinations of a consistent digle are distinct. -/
theorem outs_nodup (d : DigleData) (hwf : d.WF) (hg : ConsistentG d) (id : LineId) :
    ((d.edges.get id).map Edge.dest).Nodup := by
  refine dests_nodup _ (MMap.get_sorted d.edges hwf.2.2.1 id) ?_
  intro e he e' he' hdd
  have h1 := (hg.2.1 id e he).2.2.1
  have h2 := (hg.2.1 id e' he').2.2.1
  cases e; cases e'
  simp only at hdd
  subst hdd
  simp only at h1 h2
  rw [h1, h2]

/-- In-neighbor destinations of a consistent digle are distinct. -/
theorem ins_nodup (d : DigleData) (hwf : d.WF) (hg : ConsistentG d) (id : LineId) :
    ((d.back_edges.get id).map Edge.dest).Nodup := by
  refine dests_nodup _ (MMap.get_sorted d.back_edges hwf.2.2.2 id) ?_
  intro e he e' he' hdd
  have h1 := (hg.2.2 id e he).2.2.1
  have h2 := (hg.2.2 id e' he').2.2.1
  cases e; cases e'
  simp only at hdd
  subst hdd
  simp only at h1 h2
  rw [h1, h2]

theorem deleteNode_lines (d : DigleData) (id : LineId) :
    (deleteNode d id).lines = setRemove id d.lines := by
  simp only [deleteNode]
  rw [(foldl_markEdge_fields _ _ _ _).1, (foldl_markBack_fields _ _ _ _).1]

theorem deleteNode_deleted (d : DigleData) (id : LineId) :
    (deleteNode d id).deleted_lines = sortedInsert id d.deleted_lines := by
  simp only [deleteNode]
  rw [(foldl_markEdge_fields _ _ _ _).2.1, (foldl_markBack_fields _ _ _ _).2.1]

theorem deleteNode_edges_get (d : DigleData) (id : LineId) (hwf : d.edges.WF)
    (hnd : ((d.back_edges.get id).map Edge.dest).Nodup) (q : LineId) :
    (deleteNode d id).edges.get q =
      if q ∈ (d.back_edges.get id).map Edge.dest then
        sortedInsert ⟨id, true⟩ (setRemove ⟨id, false⟩ (d.edges.get q))
      else d.edges.get q := by
  simp only [deleteNode, allOutEdges, allInEdges]
  have key : ∀ dd : DigleData, dd.edges = d.edges →
      (((d.back_edges.get id).map Edge.dest).foldl
        (fun s i => markEdge s i id true) dd).edges.get q =
      if q ∈ (d.back_edges.get id).map Edge.dest then
        sortedInsert ⟨id, true⟩ (setRemove ⟨id, false⟩ (d.edges.get q))
      else d.edges.get q := by
    intro dd hdd
    rw [foldl_markEdge_get _ id true hnd dd (hdd.symm ▸ hwf) q, hdd]
    simp only [Bool.not_true]
  exact key _ ((foldl_markBack_fields _ _ _ _).2.2)

theorem deleteNode_back_get (d : DigleData) (id : LineId) (hwf : d.back_edges.WF)
    (hnd : ((d.edges.get id).map Edge.dest).Nodup) (q : LineId) :
    (deleteNode d id).back_edges.get q =
      if q ∈ (d.edges.get id).map Edge.dest then
        sortedInsert ⟨id, true⟩ (setRemove ⟨id, false⟩ (d.back_edges.get q))
      else d.back_edges.get q := by
  simp only [deleteNode, allOutEdges, allInEdges]
  rw [(foldl_markEdge_fields _ _ _ _).2.2]
  have key : ∀ dd : DigleData, dd.back_edges = d.back_edges →
      (((d.edges.get id).map Edge.dest).foldl
        (fun s o => markBackEdge s o id true) dd).back_edges.get q =
      if q ∈ (d.edges.get id).map Edge.dest then
        sortedInsert ⟨id, true⟩ (setRemove ⟨id, false⟩ (d.back_edges.get q))
      else d.back_edges.get q := by
    intro dd hdd
    rw [foldl_markBack_get _ id true hnd dd (hdd.symm ▸ hwf) q, hdd]
    simp only [Bool.not_true]
  exact key _ rfl

theorem undeleteNode_lines (d : DigleData) (id : LineId) :
    (undeleteNode d id).lines = sortedInsert id d.lines := by
  simp only [undeleteNode]
  rw [(foldl_markEdge_fields _ _ _ _).1, (foldl_markBack_fields _ _ _ _).1]

theorem undeleteNode_deleted (d : DigleData) (id : LineId) :
    (undeleteNode d id).deleted_lines = setRemove id d.deleted_lines := by
  simp only [undeleteNode]
  rw [(foldl_markEdge_fields _ _ _ _).2.1, (foldl_markBack_fields _ _ _ _).2.1]

theorem undeleteNode_edges_get (d : DigleData) (id : LineId) (hwf : d.edges.WF)
    (hnd : ((d.back_edges.get id).map Edge.dest).Nodup) (q : LineId) :
    (undeleteNode d id).edges.get q =
      if q ∈ (d.back_edges.get id).map Edge.dest then
        sortedInsert ⟨id, false⟩ (setRemove ⟨id, true⟩ (d.edges.get q))
      else d.edges.get q := by
  simp only [undeleteNode, allOutEdges, allInEdges]
  have key : ∀ dd : DigleData, dd.edges = d.edges →
      (((d.back_edges.get id).map Edge.dest).foldl
        (fun s i => markEdge s i id false) dd).edges.get q =
      if q ∈ (d.back_edges.get id).map Edge.dest then
        sortedInsert ⟨id, false⟩ (setRemove ⟨id, true⟩ (d.edges.get q))
      else d.edges.get q := by
    intro dd hdd
    rw [foldl_markEdge_get _ id false hnd dd (hdd.symm ▸ hwf) q, hdd]
    simp only [Bool.not_false]
  exact key _ ((foldl_markBack_fields _ _ _ _).2.2)

theorem undeleteNode_back_get (d : DigleData) (id : LineId) (hwf : d.back_edges.WF)
    (hnd : ((d.edges.get id).map Edge.dest).Nodup) (q : LineId) :
    (undeleteNode d id).back_edges.get q =
      if q ∈ (d.edges.get id).map Edge.dest then
        sortedInsert ⟨id, false⟩ (setRemove ⟨id, true⟩ (d.back_edges.get q))
      else d.back_edges.get q := by
  simp only [undeleteNode, allOutEdges, allInEdges]
  rw [(foldl_markEdge_fields _ _ _ _).2.2]
  have key : ∀ dd : DigleData, dd.back_edges = d.back_edges →
      (((d.edges.get id).map Edge.dest).foldl
        (fun s o => markBackEdge s o id false) dd).back_edges.get q =
      if q ∈ (d.edges.get id).map Edge.dest then
        sortedInsert ⟨id, false⟩ (setRemove ⟨id, true⟩ (d.back_edges.get q))
      else d.back_edges.get q := by
    intro dd hdd
    rw [foldl_markBack_get _ id false hnd dd (hdd.symm ▸ hwf) q, hdd]
    simp only [Bool.not_false]
  exact key _ rfl

/-! ### Well-formedness preservation of the primitives -/

theorem addNode_wf (d : DigleData) (id : LineId) (h : d.WF) : (addNode d id).WF :=
  ⟨sortedInsert_pairwise id d.lines h.1, h.2.1, h.2.2.1, h.2.2.2⟩

theorem unaddNode_wf (d : DigleData) (id : LineId) (h : d.WF) : (unaddNode d id).WF :=
  ⟨setRemove_pairwise id d.lines h.1, h.2.1, h.2.2.1, h.2.2.2⟩

theorem addEdge_wf (d : DigleData) (u v : LineId) (h : d.WF) : (addEdge d u v).WF :=
  ⟨h.1, h.2.1, MMap.insert_wf _ _ _ h.2.2.1, MMap.insert_wf _ _ _ h.2.2.2⟩

theorem unaddEdge_wf (d : DigleData) (u v : LineId) (h : d.WF) : (unaddEdge d u v).WF :=
  ⟨h.1, h.2.1, MMap.remove_wf _ _ _ h.2.2.1, MMap.remove_wf _ _ _ h.2.2.2⟩

theorem deleteNode_wf (d : DigleData) (id : LineId) (h : d.WF) : (deleteNode d id).WF := by
  refine ⟨?_, ?_, ?_, ?_⟩
  · rw [deleteNode_lines]
    exact setRemove_pairwise id d.lines h.1
  · rw [deleteNode_deleted]
    exact sortedInsert_pairwise id d.deleted_lines h.2.1
  · simp only [deleteNode, allOutEdges, allInEdges]
    refine foldl_markEdge_wf _ id true _ ?_
    exact ((foldl_markBack_fields _ _ _ _).2.2).symm ▸ h.2.2.1
  · simp only [deleteNode, allOutEdges, allInEdges]
    rw [(foldl_markEdge_fields _ _ _ _).2.2]
    exact foldl_markBack_wf _ id true _ h.2.2.2

theorem undeleteNode_wf (d : DigleData) (id : LineId) (h : d.WF) :
    (undeleteNode d id).WF := by
  refine ⟨?_, ?_, ?_, ?_⟩
  · rw [undeleteNode_lines]
    exact sortedInsert_pairwise id d.lines h.1
  · rw [undeleteNode_deleted]
    exact setRemove_pairwise id d.deleted_lines h.2.1
  · simp only [undeleteNode, allOutEdges, allInEdges]
    refine foldl_markEdge_wf _ id false _ ?_
    exact ((foldl_markBack_fields _ _ _ _).2.2).symm ▸ h.2.2.1
  · simp only [undeleteNode, allOutEdges, allInEdges]
    rw [(foldl_markEdge_fields _ _ _ _).2.2]
    exact foldl_markBack_wf _ id false _ h.2.2.2

/-! ### Consistency preservation: node insertion and removal, edge
insertion and removal -/

theorem addNode_consistentG (d : DigleData) (hg : ConsistentG d) (id : LineId)
    (hid : ¬Known d id) : ConsistentG (addNode d id) := by
  obtain ⟨h1, h2, h3⟩ := hg
  have hKnown : ∀ x, Known d x → Known (addNode d id) x := by
    intro x hx
    rcases hx with hx | hx
    · exact Or.inl ((mem_sortedInsert id x d.lines).2 (Or.inr hx))
    · exact Or.inr hx
  refine ⟨?_, ?_, ?_⟩
  · intro x hx
    rcases (mem_sortedInsert id x d.lines).1 hx with rfl | hx
    · exact fun hc => hid (Or.inr hc)
    · exact h1 x hx
  · intro u e he
    obtain ⟨k1, k2, k3, k4⟩ := h2 u e he
    exact ⟨hKnown u k1, hKnown e.dest k2, k3, k4⟩
  · intro u e he
    obtain ⟨k1, k2, k3, k4⟩ := h3 u e he
    exact ⟨hKnown u k1, hKnown e.dest k2, k3, k4⟩

theorem unaddNode_consistentG (d : DigleData) (hg : ConsistentG d) (id : LineId)
    (hoe : d.edges.get id = []) (hbe : d.back_edges.get id = []) :
    ConsistentG (unaddNode d id) := by
  obtain ⟨h1, h2, h3⟩ := hg
  have hKnown : ∀ x, Known d x → x ≠ id → Known (unaddNode d id) x := by
    intro x hx hne
    rcases hx with hx | hx
    · exact Or.inl ((mem_setRemove id x d.lines).2 ⟨hx, hne⟩)
    · exact Or.inr hx
  refine ⟨?_, ?_, ?_⟩
  · intro x hx
    exact h1 x ((mem_setRemove id x d.lines).1 hx).1
  · intro u e he
    obtain ⟨k1, k2, k3, k4⟩ := h2 u e he
    have hu : u ≠ id := by
      rintro rfl
      have he' : e ∈ d.edges.get u := he
      rw [hoe] at he'
      cases he'
    have hd : e.dest ≠ id := by
      intro hdd
      rw [hdd, hbe] at k4
      cases k4
    exact ⟨hKnown u k1 hu, hKnown e.dest k2 hd, k3, k4⟩
  · intro u e he
    obtain ⟨k1, k2, k3, k4⟩ := h3 u e he
    have hu : u ≠ id := by
      rintro rfl
      have he' : e ∈ d.back_edges.get u := he
      rw [hbe] at he'
      cases he'
    have hd : e.dest ≠ id := by
      intro hdd
      rw [hdd, hoe] at k4
      cases k4
    exact ⟨hKnown u k1 hu, hKnown e.dest k2 hd, k3, k4⟩

theorem addEdge_consistentG (d : DigleData) (hwf : d.WF) (hg : ConsistentG d)
    (u v : LineId) (hu : Known d u) (hv : Known d v) :
    ConsistentG (addEdge d u v) := by
  obtain ⟨h1, h2, h3⟩ := hg
  have hfu := flag_of_known d h1 u hu
  have hfv := flag_of_known d h1 v hv
  have hge : ∀ w, (addEdge d u v).edges.get w =
      if w = u then sortedInsert ⟨v, !(decide (v ∈ d.lines))⟩ (d.edges.get u)
      else d.edges.get w := by
    intro w
    show (d.edges.insert u ⟨v, !(decide (v ∈ d.lines))⟩).get w = _
    rw [MMap.get_insert d.edges hwf.2.2.1.1 u w _]
  have hgb : ∀ w, (addEdge d u v).back_edges.get w =
      if w = v then sortedInsert ⟨u, !(decide (u ∈ d.lines))⟩ (d.back_edges.get v)
      else d.back_edges.get w := by
    intro w
    show (d.back_edges.insert v ⟨u, !(decide (u ∈ d.lines))⟩).get w = _
    rw [MMap.get_insert d.back_edges hwf.2.2.2.1 v w _]
  refine ⟨h1, ?_, ?_⟩
  · intro w e he
    rw [hge w] at he
    have old : ∀ w' e', e' ∈ d.edges.get w' →
        Known d w' ∧ Known d e'.dest ∧
        e'.deleted = decide (e'.dest ∈ d.deleted_lines) ∧
        Edge.mk w' (decide (w' ∈ d.deleted_lines)) ∈
          (addEdge d u v).back_edges.get e'.dest := by
      intro w' e' he'
      obtain ⟨k1, k2, k3, k4⟩ := h2 w' e' he'
      refine ⟨k1, k2, k3, ?_⟩
      rw [hgb e'.dest]
      by_cases hdv : e'.dest = v
      · rw [if_pos hdv]
        exact (mem_sortedInsert _ _ _).2 (Or.inr (hdv ▸ k4))
      · rw [if_neg hdv]
        exact k4
    by_cases hw : w = u
    · rw [if_pos hw] at he
      rcases (mem_sortedInsert _ _ _).1 he with rfl | he'
      · refine ⟨hw ▸ hu, hv, hfv, ?_⟩
        show Edge.mk w (decide (w ∈ d.deleted_lines)) ∈
          (addEdge d u v).back_edges.get v
        rw [hgb v, if_pos rfl]
        refine (mem_sortedInsert _ _ _).2 (Or.inl ?_)
        rw [hw]
        exact congrArg (Edge.mk u) hfu.symm
      · exact old w e (by rw [hw]; exact he')
    · rw [if_neg hw] at he
      exact old w e he
  · intro w e he
    rw [hgb w] at he
    have old : ∀ w' e', e' ∈ d.back_edges.get w' →
        Known d w' ∧ Known d e'.dest ∧
        e'.deleted = decide (e'.dest ∈ d.deleted_lines) ∧
        Edge.mk w' (decide (w' ∈ d.deleted_lines)) ∈
          (addEdge d u v).edges.get e'.dest := by
      intro w' e' he'
      obtain ⟨k1, k2, k3, k4⟩ := h3 w' e' he'
      refine ⟨k1, k2, k3, ?_⟩
      rw [hge e'.dest]
      by_cases hdu : e'.dest = u
      · rw [if_pos hdu]
        exact (mem_sortedInsert _ _ _).2 (Or.inr (hdu ▸ k4))
      · rw [if_neg hdu]
        exact k4
    by_cases hw : w = v
    · rw [if_pos hw] at he
      rcases (mem_sortedInsert _ _ _).1 he with rfl | he'
      · refine ⟨hw ▸ hv, hu, hfu, ?_⟩
        show Edge.mk w (decide (w ∈ d.deleted_lines)) ∈
          (addEdge d u v).edges.get u
        rw [hge u, if_pos rfl]
        refine (mem_sortedInsert _ _ _).2 (Or.inl ?_)
        rw [hw]
        exact congrArg (Edge.mk v) hfv.symm
      · exact old w e (by rw [hw]; exact he')
    · rw [if_neg hw] at he
      exact old w e he

theorem unaddEdge_consistentG (d : DigleData) (hwf : d.WF) (hg : ConsistentG d)
    (u v : LineId) (hu : Known d u) (hv : Known d v) :
    ConsistentG (unaddEdge d u v) := by
  obtain ⟨h1, h2, h3⟩ := hg
  have hfu := flag_of_known d h1 u hu
  have hfv := flag_of_known d h1 v hv
  have hge : ∀ w, (unaddEdge d u v).edges.get w =
      if w = u then setRemove ⟨v, !(decide (v ∈ d.lines))⟩ (d.edges.get u)
      else d.edges.get w := by
    intro w
    show (d.edges.remove u ⟨v, !(decide (v ∈ d.lines))⟩).get w = _
    rw [MMap.get_remove d.edges hwf.2.2.1.1 u w _]
  have hgb : ∀ w, (unaddEdge d u v).back_edges.get w =
      if w = v then setRemove ⟨u, !(decide (u ∈ d.lines))⟩ (d.back_edges.get v)
      else d.back_edges.get w := by
    intro w
    show (d.back_edges.remove v ⟨u, !(decide (u ∈ d.lines))⟩).get w = _
    rw [MMap.get_remove d.back_edges hwf.2.2.2.1 v w _]
  refine ⟨h1, ?_, ?_⟩
  · intro w e he
    rw [hge w] at he
    have hmem : e ∈ d.edges.get w ∧ (w = u → e ≠ ⟨v, !(decide (v ∈ d.lines))⟩) := by
      by_cases hw : w = u
      · rw [if_pos hw] at he
        have := (mem_setRemove _ _ _).1 he
        exact ⟨by rw [hw]; exact this.1, fun _ => this.2⟩
      · rw [if_neg hw] at he
        exact ⟨he, fun h => absurd h hw⟩
    obtain ⟨k1, k2, k3, k4⟩ := h2 w e hmem.1
    refine ⟨k1, k2, k3, ?_⟩
    rw [hgb e.dest]
    by_cases hdv : e.dest = v
    · rw [if_pos hdv]
      refine (mem_setRemove _ _ _).2 ⟨hdv ▸ k4, ?_⟩
      intro hbad
      have hwu : w = u := congrArg Edge.dest hbad
      have heq : e = ⟨v, !(decide (v ∈ d.lines))⟩ := by
        have h5 : e.deleted = !(decide (v ∈ d.lines)) := by
          rw [k3, hdv, ← hfv]
        cases e
        simp only at hdv h5
        rw [hdv, h5]
      exact hmem.2 hwu heq
    · rw [if_neg hdv]
      exact k4
  · intro w e he
    rw [hgb w] at he
    have hmem : e ∈ d.back_edges.get w ∧
        (w = v → e ≠ ⟨u, !(decide (u ∈ d.lines))⟩) := by
      by_cases hw : w = v
      · rw [if_pos hw] at he
        have := (mem_setRemove _ _ _).1 he
        exact ⟨by rw [hw]; exact this.1, fun _ => this.2⟩
      · rw [if_neg hw] at he
        exact ⟨he, fun h => absurd h hw⟩
    obtain ⟨k1, k2, k3, k4⟩ := h3 w e hmem.1
    refine ⟨k1, k2, k3, ?_⟩
    rw [hge e.dest]
    by_cases hdu : e.dest = u
    · rw [if_pos hdu]
      refine (mem_setRemove _ _ _).2 ⟨hdu ▸ k4, ?_⟩
      intro hbad
      have hwv : w = v := congrArg Edge.dest hbad
      have heq : e = ⟨u, !(decide (u ∈ d.lines))⟩ := by
        have h5 : e.deleted = !(decide (u ∈ d.lines)) := by
          rw [k3, hdu, ← hfu]
        cases e
        simp only at hdu h5
        rw [hdu, h5]
      exact hmem.2 hwv heq
    · rw [if_neg hdu]
      exact k4

theorem deleteNode_consistentG (d : DigleData) (hwf : d.WF) (hg : ConsistentG d)
    (id : LineId) (hid : id ∈ d.lines) : ConsistentG (deleteNode d id) := by
  have h1 := hg.1
  have hIdNd : id ∉ d.deleted_lines := h1 id hid
  have hIdFlag0 : decide (id ∈ d.deleted_lines) = false := by simp [hIdNd]
  have hndIns := ins_nodup d hwf hg id
  have hndOuts := outs_nodup d hwf hg id
  have hge := deleteNode_edges_get d id hwf.2.2.1 hndIns
  have hgb := deleteNode_back_get d id hwf.2.2.2 hndOuts
  have hlines := deleteNode_lines d id
  have hdel := deleteNode_deleted d id
  have hdelMem : ∀ x, x ∈ (deleteNode d id).deleted_lines ↔
      x = id ∨ x ∈ d.deleted_lines := by
    intro x
    rw [hdel]
    exact mem_sortedInsert id x _
  have hflagNe : ∀ x, x ≠ id →
      decide (x ∈ (deleteNode d id).deleted_lines) = decide (x ∈ d.deleted_lines) := by
    intro x hx
    refine decide_eq_decide.2 ?_
    rw [hdelMem]
    simp [hx]
  have hflagId : decide (id ∈ (deleteNode d id).deleted_lines) = true := by
    rw [decide_eq_true_eq]
    exact (hdelMem id).2 (Or.inl rfl)
  have hKn : ∀ x, Known d x → Known (deleteNode d id) x := by
    intro x hx
    by_cases hxid : x = id
    · subst hxid
      exact Or.inr ((hdelMem x).2 (Or.inl rfl))
    · rcases hx with hx | hx
      · left
        rw [hlines]
        exact (mem_setRemove _ _ _).2 ⟨hx, hxid⟩
      · exact Or.inr ((hdelMem x).2 (Or.inr hx))
  have eIdFlag : ∀ w e, e ∈ d.edges.get w → e.dest = id → e = Edge.mk id false := by
    intro w e he hdd
    have k3 := (hg.2.1 w e he).2.2.1
    cases e with | mk a b =>
    simp only at hdd
    subst hdd
    simp only at k3
    rw [hIdFlag0] at k3
    rw [k3]
  have bIdFlag : ∀ w e, e ∈ d.back_edges.get w → e.dest = id → e = Edge.mk id false := by
    intro w e he hdd
    have k3 := (hg.2.2 w e he).2.2.1
    cases e with | mk a b =>
    simp only at hdd
    subst hdd
    simp only at k3
    rw [hIdFlag0] at k3
    rw [k3]
  have hinsIff : ∀ q, q ∈ (d.back_edges.get id).map Edge.dest ↔
      Edge.mk id false ∈ d.edges.get q := by
    intro q
    constructor
    · intro hq
      obtain ⟨e, he, hdq⟩ := List.mem_map.1 hq
      have k4 := (hg.2.2 id e he).2.2.2
      rw [hIdFlag0] at k4
      rw [← hdq]
      exact k4
    · intro hq
      have k4 := (hg.2.1 q (Edge.mk id false) hq).2.2.2
      exact List.mem_map.2 ⟨_, k4, rfl⟩
  have houtsIff : ∀ q, q ∈ (d.edges.get id).map Edge.dest ↔
      Edge.mk id false ∈ d.back_edges.get q := by
    intro q
    constructor
    · intro hq
      obtain ⟨e, he, hdq⟩ := List.mem_map.1 hq
      have k4 := (hg.2.1 id e he).2.2.2
      rw [hIdFlag0] at k4
      rw [← hdq]
      exact k4
    · intro hq
      have k4 := (hg.2.2 q (Edge.mk id false) hq).2.2.2
      exact List.mem_map.2 ⟨_, k4, rfl⟩
  refine ⟨?_, ?_, ?_⟩
  · intro x hx
    rw [hlines] at hx
    obtain ⟨hx1, hx2⟩ := (mem_setRemove _ _ _).1 hx
    intro hc
    rcases (hdelMem x).1 hc with rfl | hc2
    · exact hx2 rfl
    · exact h1 x hx1 hc2
  · have mainE : ∀ w e, e ∈ d.edges.get w → e.dest ≠ id →
        Known (deleteNode d id) w ∧ Known (deleteNode d id) e.dest ∧
        e.deleted = decide (e.dest ∈ (deleteNode d id).deleted_lines) ∧
        Edge.mk w (decide (w ∈ (deleteNode d id).deleted_lines)) ∈
          (deleteNode d id).back_edges.get e.dest := by
      intro w e he hdne
      obtain ⟨k1, k2, k3, k4⟩ := hg.2.1 w e he
      refine ⟨hKn w k1, hKn e.dest k2, by rw [k3, hflagNe e.dest hdne], ?_⟩
      rw [hgb e.dest]
      by_cases hwid : w = id
      · subst hwid
        rw [hflagId]
        have hdo : e.dest ∈ (d.edges.get w).map Edge.dest :=
          List.mem_map.2 ⟨e, he, rfl⟩
        rw [if_pos hdo]
        exact (mem_sortedInsert _ _ _).2 (Or.inl rfl)
      · rw [hflagNe w hwid]
        by_cases hdo : e.dest ∈ (d.edges.get id).map Edge.dest
        · rw [if_pos hdo]
          refine (mem_sortedInsert _ _ _).2
            (Or.inr ((mem_setRemove _ _ _).2 ⟨k4, ?_⟩))
          intro hbad
          exact hwid (congrArg Edge.dest hbad)
        · rw [if_neg hdo]
          exact k4
    intro w e he
    rw [hge w] at he
    by_cases hw : w ∈ (d.back_edges.get id).map Edge.dest
    · rw [if_pos hw] at he
      rcases (mem_sortedInsert _ _ _).1 he with rfl | he2
      · have hwk : Known d w := by
          obtain ⟨e', he', hdq⟩ := List.mem_map.1 hw
          exact hdq ▸ (hg.2.2 id e' he').2.1
        refine ⟨hKn w hwk, Or.inr ((hdelMem id).2 (Or.inl rfl)), ?_, ?_⟩
        · show true = decide (id ∈ (deleteNode d id).deleted_lines)
          rw [hflagId]
        · show Edge.mk w (decide (w ∈ (deleteNode d id).deleted_lines)) ∈
            (deleteNode d id).back_edges.get id
          rw [hgb id]
          by_cases hwid : w = id
          · subst hwid
            have hio : w ∈ (d.edges.get w).map Edge.dest :=
              List.mem_map.2 ⟨_, (hinsIff w).1 hw, rfl⟩
            rw [if_pos hio, hflagId]
            exact (mem_sortedInsert _ _ _).2 (Or.inl rfl)
          · rw [hflagNe w hwid]
            have hbm : Edge.mk w (decide (w ∈ d.deleted_lines)) ∈
                d.back_edges.get id := by
              obtain ⟨e', he', hdq⟩ := List.mem_map.1 hw
              have k3' := (hg.2.2 id e' he').2.2.1
              have : e' = Edge.mk w (decide (w ∈ d.deleted_lines)) := by
                cases e' with | mk a b =>
                simp only at hdq
                subst hdq
                simp only at k3'
                rw [k3']
              rw [← this]
              exact he'
            by_cases hdo : id ∈ (d.edges.get id).map Edge.dest
            · rw [if_pos hdo]
              refine (mem_sortedInsert _ _ _).2
                (Or.inr ((mem_setRemove _ _ _).2 ⟨hbm, ?_⟩))
              intro hbad
              exact hwid (congrArg Edge.dest hbad)
            · rw [if_neg hdo]
              exact hbm
      · obtain ⟨he3, hne⟩ := (mem_setRemove _ _ _).1 he2
        have hdne : e.dest ≠ id := fun hdd => hne (eIdFlag w e he3 hdd)
        exact mainE w e he3 hdne
    · rw [if_neg hw] at he
      have hdne : e.dest ≠ id := by
        intro hdd
        have heq := eIdFlag w e he hdd
        rw [heq] at he
        exact hw ((hinsIff w).2 he)
      exact mainE w e he hdne
  · have mainB : ∀ w e, e ∈ d.back_edges.get w → e.dest ≠ id →
        Known (deleteNode d id) w ∧ Known (deleteNode d id) e.dest ∧
        e.deleted = decide (e.dest ∈ (deleteNode d id).deleted_lines) ∧
        Edge.mk w (decide (w ∈ (deleteNode d id).deleted_lines)) ∈
          (deleteNode d id).edges.get e.dest := by
      intro w e he hdne
      obtain ⟨k1, k2, k3, k4⟩ := hg.2.2 w e he
      refine ⟨hKn w k1, hKn e.dest k2, by rw [k3, hflagNe e.dest hdne], ?_⟩
      rw [hge e.dest]
      by_cases hwid : w = id
      · subst hwid
        rw [hflagId]
        have hdo : e.dest ∈ (d.back_edges.get w).map Edge.dest :=
          List.mem_map.2 ⟨e, he, rfl⟩
        rw [if_pos hdo]
        exact (mem_sortedInsert _ _ _).2 (Or.inl rfl)
      · rw [hflagNe w hwid]
        by_cases hdo : e.dest ∈ (d.back_edges.get id).map Edge.dest
        · rw [if_pos hdo]
          refine (mem_sortedInsert _ _ _).2
            (Or.inr ((mem_setRemove _ _ _).2 ⟨k4, ?_⟩))
          intro hbad
          exact hwid (congrArg Edge.dest hbad)
        · rw [if_neg hdo]
          exact k4
    intro w e he
    rw [hgb w] at he
    by_cases hw : w ∈ (d.edges.get id).map Edge.dest
    · rw [if_pos hw] at he
      rcases (mem_sortedInsert _ _ _).1 he with rfl | he2
      · have hwk : Known d w := by
          obtain ⟨e', he', hdq⟩ := List.mem_map.1 hw
          exact hdq ▸ (hg.2.1 id e' he').2.1
        refine ⟨hKn w hwk, Or.inr ((hdelMem id).2 (Or.inl rfl)), ?_, ?_⟩
        · show true = decide (id ∈ (deleteNode d id).deleted_lines)
          rw [hflagId]
        · show Edge.mk w (decide (w ∈ (deleteNode d id).deleted_lines)) ∈
            (deleteNode d id).edges.get id
          rw [hge id]
          by_cases hwid : w = id
          · subst hwid
            have hio : w ∈ (d.back_edges.get w).map Edge.dest :=
              List.mem_map.2 ⟨_, (houtsIff w).1 hw, rfl⟩
            rw [if_pos hio, hflagId]
            exact (mem_sortedInsert _ _ _).2 (Or.inl rfl)
          · rw [hflagNe w hwid]
            have hbm : Edge.mk w (decide (w ∈ d.deleted_lines)) ∈
                d.edges.get id := by
              obtain ⟨e', he', hdq⟩ := List.mem_map.1 hw
              have k3' := (hg.2.1 id e' he').2.2.1
              have : e' = Edge.mk w (decide (w ∈ d.deleted_lines)) := by
                cases e' with | mk a b =>
                simp only at hdq
                subst hdq
                simp only at k3'
                rw [k3']
              rw [← this]
              exact he'
            by_cases hdo : id ∈ (d.back_edges.get id).map Edge.dest
            · rw [if_pos hdo]
              refine (mem_sortedInsert _ _ _).2
                (Or.inr ((mem_setRemove _ _ _).2 ⟨hbm, ?_⟩))
              intro hbad
              exact hwid (congrArg Edge.dest hbad)
            · rw [if_neg hdo]
              exact hbm
      · obtain ⟨he3, hne⟩ := (mem_setRemove _ _ _).1 he2
        have hdne : e.dest ≠ id := fun hdd => hne (bIdFlag w e he3 hdd)
        exact mainB w e he3 hdne
    · rw [if_neg hw] at he
      have hdne : e.dest ≠ id := by
        intro hdd
        have heq := bIdFlag w e he hdd
        rw [heq] at he
        exact hw ((houtsIff w).2 he)
      exact mainB w e he hdne

theorem undeleteNode_consistentG (d : DigleData) (hwf : d.WF) (hg : ConsistentG d)
    (id : LineId) (hid : id ∈ d.deleted_lines) : ConsistentG (undeleteNode d id) := by
  have h1 := hg.1
  have hIdFlag0 : decide (id ∈ d.deleted_lines) = true := by simp [hid]
  have hndIns := ins_nodup d hwf hg id
  have hndOuts := outs_nodup d hwf hg id
  have hge := undeleteNode_edges_get d id hwf.2.2.1 hndIns
  have hgb := undeleteNode_back_get d id hwf.2.2.2 hndOuts
  have hlines := undeleteNode_lines d id
  have hdel := undeleteNode_deleted d id
  have hdelMem : ∀ x, x ∈ (undeleteNode d id).deleted_lines ↔
      x ∈ d.deleted_lines ∧ x ≠ id := by
    intro x
    rw [hdel]
    exact mem_setRemove id x _
  have hflagNe : ∀ x, x ≠ id →
      decide (x ∈ (undeleteNode d id).deleted_lines) = decide (x ∈ d.deleted_lines) := by
    intro x hx
    refine decide_eq_decide.2 ?_
    rw [hdelMem]
    simp [hx]
  have hflagId : decide (id ∈ (undeleteNode d id).deleted_lines) = false := by
    rw [decide_eq_false_iff_not, hdelMem]
    exact fun h => h.2 rfl
  have hKn : ∀ x, Known d x → Known (undeleteNode d id) x := by
    intro x hx
    by_cases hxid : x = id
    · subst hxid
      left
      rw [hlines]
      exact (mem_sortedInsert _ _ _).2 (Or.inl rfl)
    · rcases hx with hx | hx
      · left
        rw [hlines]
        exact (mem_sortedInsert _ _ _).2 (Or.inr hx)
      · exact Or.inr ((hdelMem x).2 ⟨hx, hxid⟩)
  have eIdFlag : ∀ w e, e ∈ d.edges.get w → e.dest = id → e = Edge.mk id true := by
    intro w e he hdd
    have k3 := (hg.2.1 w e he).2.2.1
    cases e with | mk a b =>
    simp only at hdd
    subst hdd
    simp only at k3
    rw [hIdFlag0] at k3
    rw [k3]
  have bIdFlag : ∀ w e, e ∈ d.back_edges.get w → e.dest = id → e = Edge.mk id true := by
    intro w e he hdd
    have k3 := (hg.2.2 w e he).2.2.1
    cases e with | mk a b =>
    simp only at hdd
    subst hdd
    simp only at k3
    rw [hIdFlag0] at k3
    rw [k3]
  have hinsIff : ∀ q, q ∈ (d.back_edges.get id).map Edge.dest ↔
      Edge.mk id true ∈ d.edges.get q := by
    intro q
    constructor
    · intro hq
      obtain ⟨e, he, hdq⟩ := List.mem_map.1 hq
      have k4 := (hg.2.2 id e he).2.2.2
      rw [hIdFlag0] at k4
      rw [← hdq]
      exact k4
    · intro hq
      have k4 := (hg.2.1 q (Edge.mk id true) hq).2.2.2
      exact List.mem_map.2 ⟨_, k4, rfl⟩
  have houtsIff : ∀ q, q ∈ (d.edges.get id).map Edge.dest ↔
      Edge.mk id true ∈ d.back_edges.get q := by
    intro q
    constructor
    · intro hq
      obtain ⟨e, he, hdq⟩ := List.mem_map.1 hq
      have k4 := (hg.2.1 id e he).2.2.2
      rw [hIdFlag0] at k4
      rw [← hdq]
      exact k4
    · intro hq
      have k4 := (hg.2.2 q (Edge.mk id true) hq).2.2.2
      exact List.mem_map.2 ⟨_, k4, rfl⟩
  refine ⟨?_, ?_, ?_⟩
  · intro x hx
    rw [hlines] at hx
    intro hc
    obtain ⟨hc1, hc2⟩ := (hdelMem x).1 hc
    rcases (mem_sortedInsert _ _ _).1 hx with rfl | hx2
    · exact hc2 rfl
    · exact h1 x hx2 hc1
  · have mainE : ∀ w e, e ∈ d.edges.get w → e.dest ≠ id →
        Known (undeleteNode d id) w ∧ Known (undeleteNode d id) e.dest ∧
        e.deleted = decide (e.dest ∈ (undeleteNode d id).deleted_lines) ∧
        Edge.mk w (decide (w ∈ (undeleteNode d id).deleted_lines)) ∈
          (undeleteNode d id).back_edges.get e.dest := by
      intro w e he hdne
      obtain ⟨k1, k2, k3, k4⟩ := hg.2.1 w e he
      refine ⟨hKn w k1, hKn e.dest k2, by rw [k3, hflagNe e.dest hdne], ?_⟩
      rw [hgb e.dest]
      by_cases hwid : w = id
      · subst hwid
        rw [hflagId]
        have hdo : e.dest ∈ (d.edges.get w).map Edge.dest :=
          List.mem_map.2 ⟨e, he, rfl⟩
        rw [if_pos hdo]
        exact (mem_sortedInsert _ _ _).2 (Or.inl rfl)
      · rw [hflagNe w hwid]
        by_cases hdo : e.dest ∈ (d.edges.get id).map Edge.dest
        · rw [if_pos hdo]
          refine (mem_sortedInsert _ _ _).2
            (Or.inr ((mem_setRemove _ _ _).2 ⟨k4, ?_⟩))
          intro hbad
          exact hwid (congrArg Edge.dest hbad)
        · rw [if_neg hdo]
          exact k4
    intro w e he
    rw [hge w] at he
    by_cases hw : w ∈ (d.back_edges.get id).map Edge.dest
    · rw [if_pos hw] at he
      rcases (mem_sortedInsert _ _ _).1 he with rfl | he2
      · have hwk : Known d w := by
          obtain ⟨e', he', hdq⟩ := List.mem_map.1 hw
          exact hdq ▸ (hg.2.2 id e' he').2.1
        refine ⟨hKn w hwk,
          Or.inl (by rw [hlines]; exact (mem_sortedInsert _ _ _).2 (Or.inl rfl)),
          ?_, ?_⟩
        · show false = decide (id ∈ (undeleteNode d id).deleted_lines)
          rw [hflagId]
        · show Edge.mk w (decide (w ∈ (undeleteNode d id).deleted_lines)) ∈
            (undeleteNode d id).back_edges.get id
          rw [hgb id]
          by_cases hwid : w = id
          · subst hwid
            have hio : w ∈ (d.edges.get w).map Edge.dest :=
              List.mem_map.2 ⟨_, (hinsIff w).1 hw, rfl⟩
            rw [if_pos hio, hflagId]
            exact (mem_sortedInsert _ _ _).2 (Or.inl rfl)
          · rw [hflagNe w hwid]
            have hbm : Edge.mk w (decide (w ∈ d.deleted_lines)) ∈
                d.back_edges.get id := by
              obtain ⟨e', he', hdq⟩ := List.mem_map.1 hw
              have k3' := (hg.2.2 id e' he').2.2.1
              have : e' = Edge.mk w (decide (w ∈ d.deleted_lines)) := by
                cases e' with | mk a b =>
                simp only at hdq
                subst hdq
                simp only at k3'
                rw [k3']
              rw [← this]
              exact he'
            by_cases hdo : id ∈ (d.edges.get id).map Edge.dest
            · rw [if_pos hdo]
              refine (mem_sortedInsert _ _ _).2
                (Or.inr ((mem_setRemove _ _ _).2 ⟨hbm, ?_⟩))
              intro hbad
              exact hwid (congrArg Edge.dest hbad)
            · rw [if_neg hdo]
              exact hbm
      · obtain ⟨he3, hne⟩ := (mem_setRemove _ _ _).1 he2
        have hdne : e.dest ≠ id := fun hdd => hne (eIdFlag w e he3 hdd)
        exact mainE w e he3 hdne
    · rw [if_neg hw] at he
      have hdne : e.dest ≠ id := by
        intro hdd
        have heq := eIdFlag w e he hdd
        rw [heq] at he
        exact hw ((hinsIff w).2 he)
      exact mainE w e he hdne
  · have mainB : ∀ w e, e ∈ d.back_edges.get w → e.dest ≠ id →
        Known (undeleteNode d id) w ∧ Known (undeleteNode d id) e.dest ∧
        e.deleted = decide (e.dest ∈ (undeleteNode d id).deleted_lines) ∧
        Edge.mk w (decide (w ∈ (undeleteNode d id).deleted_lines)) ∈
          (undeleteNode d id).edges.get e.dest := by
      intro w e he hdne
      obtain ⟨k1, k2, k3, k4⟩ := hg.2.2 w e he
      refine ⟨hKn w k1, hKn e.dest k2, by rw [k3, hflagNe e.dest hdne], ?_⟩
      rw [hge e.dest]
      by_cases hwid : w = id
      · subst hwid
        rw [hflagId]
        have hdo : e.dest ∈ (d.back_edges.get w).map Edge.dest :=
          List.mem_map.2 ⟨e, he, rfl⟩
        rw [if_pos hdo]
        exact (mem_sortedInsert _ _ _).2 (Or.inl rfl)
      · rw [hflagNe w hwid]
        by_cases hdo : e.dest ∈ (d.back_edges.get id).map Edge.dest
        · rw [if_pos hdo]
          refine (mem_sortedInsert _ _ _).2
            (Or.inr ((mem_setRemove _ _ _).2 ⟨k4, ?_⟩))
          intro hbad
          exact hwid (congrArg Edge.dest hbad)
        · rw [if_neg hdo]
          exact k4
    intro w e he
    rw [hgb w] at he
    by_cases hw : w ∈ (d.edges.get id).map Edge.dest
    · rw [if_pos hw] at he
      rcases (mem_sortedInsert _ _ _).1 he with rfl | he2
      · have hwk : Known d w := by
          obtain ⟨e', he', hdq⟩ := List.mem_map.1 hw
          exact hdq ▸ (hg.2.1 id e' he').2.1
        refine ⟨hKn w hwk,
          Or.inl (by rw [hlines]; exact (mem_sortedInsert _ _ _).2 (Or.inl rfl)),
          ?_, ?_⟩
        · show false = decide (id ∈ (undeleteNode d id).deleted_lines)
          rw [hflagId]
        · show Edge.mk w (decide (w ∈ (undeleteNode d id).deleted_lines)) ∈
            (undeleteNode d id).edges.get id
          rw [hge id]
          by_cases hwid : w = id
          · subst hwid
            have hio : w ∈ (d.back_edges.get w).map Edge.dest :=
              List.mem_map.2 ⟨_, (houtsIff w).1 hw, rfl⟩
            rw [if_pos hio, hflagId]
            exact (mem_sortedInsert _ _ _).2 (Or.inl rfl)
          · rw [hflagNe w hwid]
            have hbm : Edge.mk w (decide (w ∈ d.deleted_lines)) ∈
                d.edges.get id := by
              obtain ⟨e', he', hdq⟩ := List.mem_map.1 hw
              have k3' := (hg.2.1 id e' he').2.2.1
              have : e' = Edge.mk w (decide (w ∈ d.deleted_lines)) := by
                cases e' with | mk a b =>
                simp only at hdq
                subst hdq
                simp only at k3'
                rw [k3']
              rw [← this]
              exact he'
            by_cases hdo : id ∈ (d.back_edges.get id).map Edge.dest
            · rw [if_pos hdo]
              refine (mem_sortedInsert _ _ _).2
                (Or.inr ((mem_setRemove _ _ _).2 ⟨hbm, ?_⟩))
              intro hbad
              exact hwid (congrArg Edge.dest hbad)
            · rw [if_neg hdo]
              exact hbm
      · obtain ⟨he3, hne⟩ := (mem_setRemove _ _ _).1 he2
        have hdne : e.dest ≠ id := fun hdd => hne (bIdFlag w e he3 hdd)
        exact mainB w e he3 hdne
    · rw [if_neg hw] at he
      have hdne : e.dest ≠ id := by
        intro hdd
        have heq := bIdFlag w e he hdd
        rw [heq] at he
        exact hw ((houtsIff w).2 he)
      exact mainB w e he hdne

theorem digle_ext (a b : DigleData) (h1 : a.lines = b.lines)
    (h2 : a.deleted_lines = b.deleted_lines) (h3 : a.edges = b.edges)
    (h4 : a.back_edges = b.back_edges) : a = b := by
  cases a with | mk al ad ae ab =>
  cases b with | mk bl bd be bb =>
  rw [DigleData.mk.injEq]
  exact ⟨h1, h2, h3, h4⟩

theorem setRemove_of_not_mem [LinearOrder α] (x : α) (l : List α) (hx : x ∉ l) :
    setRemove x l = l := by
  refine List.filter_eq_self.2 ?_
  intro y hy
  simp only [decide_eq_true_eq]
  exact fun hh => hx (hh ▸ hy)

theorem setRemove_cons_self [LinearOrder α] (x : α) (l : List α) :
    setRemove x (x :: l) = setRemove x l := by
  simp only [setRemove, List.filter_cons]
  rw [if_neg (by simp)]

theorem setRemove_cons_ne [LinearOrder α] (x y : α) (l : List α) (h : y ≠ x) :
    setRemove x (y :: l) = y :: setRemove x l := by
  simp only [setRemove, List.filter_cons]
  rw [if_pos (by simp [h])]

/-- Flipping the flag of the unique edge with destination `x` does not
change the destination sequence (the derived `Edge` order is
destination-major). -/
theorem map_dest_flip (x : LineId) (f : Bool) (l : List Edge)
    (hs : l.Pairwise (· < ·)) (hin : Edge.mk x (!f) ∈ l) (hout : Edge.mk x f ∉ l) :
    (sortedInsert ⟨x, f⟩ (setRemove ⟨x, !f⟩ l)).map Edge.dest = l.map Edge.dest := by
  induction l with
  | nil => cases hin
  | cons y ys ih =>
    rcases List.pairwise_cons.1 hs with ⟨hy, hys⟩
    by_cases hyx : y = Edge.mk x (!f)
    · subst hyx
      have hnotin : Edge.mk x (!f) ∉ ys := fun h => lt_irrefl _ (hy _ h)
      rw [setRemove_cons_self, setRemove_of_not_mem _ _ hnotin]
      have hgt : ∀ e ∈ ys, Edge.mk x f < e := by
        intro e he
        have h1 : Edge.mk x (!f) < e := hy e he
        have h2 : e ≠ Edge.mk x f :=
          fun hh => hout (hh ▸ List.mem_cons_of_mem _ he)
        rcases (edge_lt_iff _ _).1 h1 with hd | ⟨hd, hf1, hf2⟩
        · exact (edge_lt_iff _ _).2 (Or.inl hd)
        · exfalso
          apply h2
          cases e with | mk a b =>
          simp only at hd hf2
          have hf : f = true := by
            cases f
            · simp at hf1
            · rfl
          rw [← hd, hf2, hf]
      cases ys with
      | nil => simp [sortedInsert]
      | cons z zs =>
        have hlt := hgt z (List.mem_cons_self z zs)
        simp only [sortedInsert]
        rw [if_neg (ne_of_lt hlt), if_pos hlt]
        simp [List.map_cons]
    · have hin' : Edge.mk x (!f) ∈ ys := by
        rcases List.mem_cons.1 hin with h | h
        · exact absurd h.symm hyx
        · exact h
      have hydx : y.dest < x := by
        have h1 : y < Edge.mk x (!f) := hy _ hin'
        rcases (edge_lt_iff _ _).1 h1 with hd | ⟨hd, hf1, hf2⟩
        · exact hd
        · exfalso
          apply hout
          have hf : f = false := by
            cases f
            · rfl
            · simp only at hf2
              simp at hf2
          have hy' : y = Edge.mk x f := by
            cases y with | mk a b =>
            simp only at hd hf1
            rw [hd, hf1, hf]
          exact hy' ▸ List.mem_cons_self y ys
      rw [setRemove_cons_ne _ _ _ hyx]
      have hylt : y < Edge.mk x f := (edge_lt_iff _ _).2 (Or.inl hydx)
      simp only [sortedInsert]
      rw [if_neg (ne_of_lt hylt).symm, if_neg (not_lt.2 (le_of_lt hylt))]
      simp only [List.map_cons]
      rw [ih hys hin' (fun h => hout (List.mem_cons_of_mem _ h))]

theorem add_unadd_node (d : DigleData) (id : LineId) (hid : ¬Known d id) :
    unaddNode (addNode d id) id = d := by
  refine digle_ext _ _ ?_ rfl rfl rfl
  show setRemove id (sortedInsert id d.lines) = d.lines
  exact setRemove_sortedInsert id d.lines (fun h => hid (Or.inl h))

theorem delete_undelete (d : DigleData) (hwf : d.WF) (hg : ConsistentG d)
    (id : LineId) (hid : id ∈ d.lines) :
    undeleteNode (deleteNode d id) id = d := by
  have h1 := hg.1
  have hIdNd : id ∉ d.deleted_lines := h1 id hid
  have hIdFlag0 : decide (id ∈ d.deleted_lines) = false := by simp [hIdNd]
  have hndIns := ins_nodup d hwf hg id
  have hndOuts := outs_nodup d hwf hg id
  have hNoTrueE : ∀ q, Edge.mk id true ∉ d.edges.get q := by
    intro q h
    have h2 : (true : Bool) = decide (id ∈ d.deleted_lines) := (hg.2.1 q _ h).2.2.1
    rw [hIdFlag0] at h2
    exact absurd h2 (by decide)
  have hNoTrueB : ∀ q, Edge.mk id true ∉ d.back_edges.get q := by
    intro q h
    have h2 : (true : Bool) = decide (id ∈ d.deleted_lines) := (hg.2.2 q _ h).2.2.1
    rw [hIdFlag0] at h2
    exact absurd h2 (by decide)
  have hinsIff : ∀ q, q ∈ (d.back_edges.get id).map Edge.dest →
      Edge.mk id false ∈ d.edges.get q := by
    intro q hq
    obtain ⟨e, he, hdq⟩ := List.mem_map.1 hq
    have k4 := (hg.2.2 id e he).2.2.2
    rw [hIdFlag0] at k4
    rw [← hdq]
    exact k4
  have houtsIff : ∀ q, q ∈ (d.edges.get id).map Edge.dest →
      Edge.mk id false ∈ d.back_edges.get q := by
    intro q hq
    obtain ⟨e, he, hdq⟩ := List.mem_map.1 hq
    have k4 := (hg.2.1 id e he).2.2.2
    rw [hIdFlag0] at k4
    rw [← hdq]
    exact k4
  have hwfD : (deleteNode d id).WF := deleteNode_wf d id hwf
  have hgeD := deleteNode_edges_get d id hwf.2.2.1 hndIns
  have hgbD := deleteNode_back_get d id hwf.2.2.2 hndOuts
  have hinsD : ((deleteNode d id).back_edges.get id).map Edge.dest =
      (d.back_edges.get id).map Edge.dest := by
    rw [hgbD id]
    by_cases hio : id ∈ (d.edges.get id).map Edge.dest
    · rw [if_pos hio]
      exact map_dest_flip id true (d.back_edges.get id)
        (MMap.get_sorted _ hwf.2.2.2 id) (houtsIff id hio) (hNoTrueB id)
    · rw [if_neg hio]
  have houtsD : ((deleteNode d id).edges.get id).map Edge.dest =
      (d.edges.get id).map Edge.dest := by
    rw [hgeD id]
    by_cases hio : id ∈ (d.back_edges.get id).map Edge.dest
    · rw [if_pos hio]
      exact map_dest_flip id true (d.edges.get id)
        (MMap.get_sorted _ hwf.2.2.1 id) (hinsIff id hio) (hNoTrueE id)
    · rw [if_neg hio]
  have hndInsD : (((deleteNode d id).back_edges.get id).map Edge.dest).Nodup := by
    rw [hinsD]
    exact hndIns
  have hndOutsD : (((deleteNode d id).edges.get id).map Edge.dest).Nodup := by
    rw [houtsD]
    exact hndOuts
  have hgeU := undeleteNode_edges_get (deleteNode d id) id hwfD.2.2.1 hndInsD
  have hgbU := undeleteNode_back_get (deleteNode d id) id hwfD.2.2.2 hndOutsD
  refine digle_ext _ _ ?_ ?_ ?_ ?_
  · rw [undeleteNode_lines, deleteNode_lines]
    exact sortedInsert_setRemove id d.lines hwf.1 hid
  · rw [undeleteNode_deleted, deleteNode_deleted]
    exact setRemove_sortedInsert id d.deleted_lines hIdNd
  · refine MMap.ext_get _ _ (undeleteNode_wf _ id hwfD).2.2.1 hwf.2.2.1 ?_
    intro q
    rw [hgeU q, hinsD]
    by_cases hq : q ∈ (d.back_edges.get id).map Edge.dest
    · rw [if_pos hq, hgeD q, if_pos hq]
      rw [setRemove_sortedInsert (Edge.mk id true) _
        (fun h => hNoTrueE q ((mem_setRemove _ _ _).1 h).1)]
      exact sortedInsert_setRemove (Edge.mk id false) _
        (MMap.get_sorted _ hwf.2.2.1 q) (hinsIff q hq)
    · rw [if_neg hq, hgeD q, if_neg hq]
  · refine MMap.ext_get _ _ (undeleteNode_wf _ id hwfD).2.2.2 hwf.2.2.2 ?_
    intro q
    rw [hgbU q, houtsD]
    by_cases hq : q ∈ (d.edges.get id).map Edge.dest
    · rw [if_pos hq, hgbD q, if_pos hq]
      rw [setRemove_sortedInsert (Edge.mk id true) _
        (fun h => hNoTrueB q ((mem_setRemove _ _ _).1 h).1)]
      exact sortedInsert_setRemove (Edge.mk id false) _
        (MMap.get_sorted _ hwf.2.2.2 q) (houtsIff q hq)
    · rw [if_neg hq, hgbD q, if_neg hq]

theorem add_unadd_edge (d : DigleData) (hwf : d.WF) (hg : ConsistentG d)
    (u v : LineId) (_hu : Known d u) (hv : Known d v)
    (hnew : Edge.mk v (!(decide (v ∈ d.lines))) ∉ d.edges.get u) :
    unaddEdge (addEdge d u v) u v = d := by
  have h1 := hg.1
  have hfv := flag_of_known d h1 v hv
  have hnewB : Edge.mk u (!(decide (u ∈ d.lines))) ∉ d.back_edges.get v := by
    intro h
    have k4 := (hg.2.2 v _ h).2.2.2
    apply hnew
    rw [show (!(decide (v ∈ d.lines))) = decide (v ∈ d.deleted_lines) from hfv]
    exact k4
  refine digle_ext _ _ rfl rfl ?_ ?_
  · refine MMap.ext_get _ _
      (MMap.remove_wf _ _ _ (MMap.insert_wf _ _ _ hwf.2.2.1)) hwf.2.2.1 ?_
    intro q
    have hI : ∀ w, (d.edges.insert u ⟨v, !(decide (v ∈ d.lines))⟩).get w =
        if w = u then sortedInsert ⟨v, !(decide (v ∈ d.lines))⟩ (d.edges.get u)
        else d.edges.get w :=
      fun w => MMap.get_insert _ hwf.2.2.1.1 u w _
    have hR := fun w => MMap.get_remove
      (d.edges.insert u ⟨v, !(decide (v ∈ d.lines))⟩)
      (MMap.insert_wf _ _ _ hwf.2.2.1).1 u w ⟨v, !(decide (v ∈ d.lines))⟩
    show ((d.edges.insert u ⟨v, !(decide (v ∈ d.lines))⟩).remove u
      ⟨v, !(decide (v ∈ d.lines))⟩).get q = d.edges.get q
    rw [hR q]
    by_cases hq : q = u
    · rw [if_pos hq, hI u, if_pos rfl,
        setRemove_sortedInsert _ _ hnew, hq]
    · rw [if_neg hq, hI q, if_neg hq]
  · refine MMap.ext_get _ _
      (MMap.remove_wf _ _ _ (MMap.insert_wf _ _ _ hwf.2.2.2)) hwf.2.2.2 ?_
    intro q
    have hI : ∀ w, (d.back_edges.insert v ⟨u, !(decide (u ∈ d.lines))⟩).get w =
        if w = v then sortedInsert ⟨u, !(decide (u ∈ d.lines))⟩ (d.back_edges.get v)
        else d.back_edges.get w :=
      fun w => MMap.get_insert _ hwf.2.2.2.1 v w _
    have hR := fun w => MMap.get_remove
      (d.back_edges.insert v ⟨u, !(decide (u ∈ d.lines))⟩)
      (MMap.insert_wf _ _ _ hwf.2.2.2).1 v w ⟨u, !(decide (u ∈ d.lines))⟩
    show ((d.back_edges.insert v ⟨u, !(decide (u ∈ d.lines))⟩).remove v
      ⟨u, !(decide (u ∈ d.lines))⟩).get q = d.back_edges.get q
    rw [hR q]
    by_cases hq : q = v
    · rw [if_pos hq, hI v, if_pos rfl,
        setRemove_sortedInsert _ _ hnewB, hq]
    · rw [if_neg hq, hI q, if_neg hq]

/-! ## Claims C4 and C5 -/

/-- C4, COUNTEREXAMPLE to the claim as stated: in the valid state
`exDigleC1` the edge `0 → 2` is already present, so `add_edge(0, 2)` is a
no-op (sets are idempotent) while `unadd_edge(0, 2)` removes the edge;
the composite is not the identity even though both endpoints are known. -/
theorem c4_counterexample :
    exDigleC1.WF ∧ Consistent exDigleC1 ∧
    Known exDigleC1 0 ∧ Known exDigleC1 2 ∧
    unaddEdge (addEdge exDigleC1 0 2) 0 2 ≠ exDigleC1 := by
  refine ⟨by decide, by decide, by decide, by decide, by decide⟩

/-- C4 (amended): on a well-formed consistent digle, `unadd_node` undoes
`add_node` of an unknown id, `undelete_node` undoes `delete_node` of a
live id, and `unadd_edge` undoes `add_edge` of known endpoints provided
the edge was not already present (structural equality of `DigleData`). -/
theorem c4_reversibility (d : DigleData) (hwf : d.WF) (hc : Consistent d) :
    (∀ id, ¬Known d id → unaddNode (addNode d id) id = d) ∧
    (∀ id, id ∈ d.lines → undeleteNode (deleteNode d id) id = d) ∧
    (∀ u v, Known d u → Known d v →
      Edge.mk v (!(decide (v ∈ d.lines))) ∉ d.edges.get u →
      unaddEdge (addEdge d u v) u v = d) := by
  have hg := (consistent_iff_g d hwf).1 hc
  exact ⟨fun id hid => add_unadd_node d id hid,
         fun id hid => delete_undelete d hwf hg id hid,
         fun u v hu hv hnew => add_unadd_edge d hwf hg u v hu hv hnew⟩

theorem c4_reversibility_witness :
    unaddNode (addNode exDigleC1 5) 5 = exDigleC1 ∧
    undeleteNode (deleteNode exDigleC1 0) 0 = exDigleC1 ∧
    unaddEdge (addEdge exDigleC1 2 1) 2 1 = exDigleC1 := by
  have h := c4_reversibility exDigleC1 (by decide) (by decide)
  exact ⟨h.1 5 (by decide), h.2.1 0 (by decide),
         h.2.2 2 1 (by decide) (by decide) (by decide)⟩

/-- C5: starting from a well-formed state satisfying the global
invariants (`assert_consistent`), every primitive invoked with its stated
precondition satisfied — and, for `unadd_node`, additionally with no
incident edges — preserves well-formedness and the invariants. -/
theorem c5_primitives_preserve_invariants (d : DigleData) (hwf : d.WF)
    (hc : Consistent d) :
    (∀ id, ¬Known d id → (addNode d id).WF ∧ Consistent (addNode d id)) ∧
    (∀ id, id ∈ d.lines → allOutEdges d id = [] → allInEdges d id = [] →
      (unaddNode d id).WF ∧ Consistent (unaddNode d id)) ∧
    (∀ id, id ∈ d.lines → (deleteNode d id).WF ∧ Consistent (deleteNode d id)) ∧
    (∀ id, id ∈ d.deleted_lines →
      (undeleteNode d id).WF ∧ Consistent (undeleteNode d id)) ∧
    (∀ u v, Known d u → Known d v →
      (addEdge d u v).WF ∧ Consistent (addEdge d u v)) ∧
    (∀ u v, Known d u → Known d v →
      (unaddEdge d u v).WF ∧ Consistent (unaddEdge d u v)) := by
  have hg := (consistent_iff_g d hwf).1 hc
  refine ⟨?_, ?_, ?_, ?_, ?_, ?_⟩
  · intro id hid
    have hwf' := addNode_wf d id hwf
    exact ⟨hwf', (consistent_iff_g _ hwf').2 (addNode_consistentG d hg id hid)⟩
  · intro id _ hoe hbe
    have hwf' := unaddNode_wf d id hwf
    exact ⟨hwf', (consistent_iff_g _ hwf').2 (unaddNode_consistentG d hg id hoe hbe)⟩
  · intro id hid
    have hwf' := deleteNode_wf d id hwf
    exact ⟨hwf', (consistent_iff_g _ hwf').2 (deleteNode_consistentG d hwf hg id hid)⟩
  · intro id hid
    have hwf' := undeleteNode_wf d id hwf
    exact ⟨hwf', (consistent_iff_g _ hwf').2 (undeleteNode_consistentG d hwf hg id hid)⟩
  · intro u v hu hv
    have hwf' := addEdge_wf d u v hwf
    exact ⟨hwf', (consistent_iff_g _ hwf').2 (addEdge_consistentG d hwf hg u v hu hv)⟩
  · intro u v hu hv
    have hwf' := unaddEdge_wf d u v hwf
    exact ⟨hwf', (consistent_iff_g _ hwf').2 (unaddEdge_consistentG d hwf hg u v hu hv)⟩

theorem c5_primitives_preserve_invariants_witness :
    ((deleteNode exDigleC1 0).WF ∧ Consistent (deleteNode exDigleC1 0)) ∧
    ((undeleteNode exDigleC1 1).WF ∧ Consistent (undeleteNode exDigleC1 1)) ∧
    ((addEdge exDigleC1 2 1).WF ∧ Consistent (addEdge exDigleC1 2 1)) ∧
    ((addNode exDigleC1 5).WF ∧ Consistent (addNode exDigleC1 5)) := by
  have h := c5_primitives_preserve_invariants exDigleC1 (by decide) (by decide)
  exact ⟨h.2.2.1 0 (by decide), h.2.2.2.1 1 (by decide),
         h.2.2.2.2.1 2 1 (by decide) (by decide), h.1 5 (by decide)⟩

/-! ## The graph algebra (`libjp/src/graph.rs`)

The `GraphRef` trait is modelled as a structure of a node list and
neighbor functions.  The `dfs` submodule is declared by `graph.rs` but its
source is not part of the reviewed tree, so the DFS event stream is
modelled from the spec (see `dfsStack`/`dfsRoots`); `top_sort` and
`linear_order` below follow `graph.rs` itself. -/

/-- A `GraphRef` instance: all nodes, and the out- and in-neighbor lists. -/
structure Graph where
  nodes : List Nat
  outN : Nat → List Nat
  inN : Nat → List Nat

/-- Modelled from the spec: the status carried on a DFS edge event
(`New`/`Repeat` in the missing `dfs` module). -/
inductive Status
  | fresh
  | again
deriving DecidableEq, Repr

/-- Modelled from the spec: the `Visit` events of the missing `dfs`
module — `Root(u)`, `Edge{src, dst, status}`, `Retreat{u, parent}`. -/
inductive Visit
  | root (u : Nat)
  | edge (src dst : Nat) (status : Status)
  | retreat (u : Nat) (parent : Option Nat)
deriving DecidableEq, Repr

/-- A frame of the iterative DFS stack: the current node, its DFS parent,
and its not-yet-considered out-neighbors. -/
structure Frame where
  u : Nat
  parent : Option Nat
  rest : List Nat
deriving DecidableEq, Repr

def stackNodes (stack : List Frame) : List Nat := stack.map Frame.u

def sumRem (stack : List Frame) : Nat := (stack.map (fun f => f.rest.length)).sum

def countNew (g : Graph) (visited : List Nat) : Nat :=
  (g.nodes.filter (fun x => !(decide (x ∈ visited)))).length

def totalOut (g : Graph) : Nat := (g.nodes.map (fun u => (g.outN u).length)).sum

def dfsMeasure (g : Graph) (stack : List Frame) (visited : List Nat) : Nat :=
  countNew g visited * (totalOut g + 1) + sumRem stack + stack.length

def dfsFuel (g : Graph) (stack : List Frame) (visited : List Nat) : Nat :=
  dfsMeasure g stack visited + 1

/-- Modelled from the spec: the inner loop of the single iterative DFS.
Emits an `Edge` event for each out-neighbor in order (`fresh` iff the
destination has not been entered), recurses into fresh in-graph
destinations, and emits `Retreat` when a node's neighbors are exhausted.
Neighbors outside the node set are reported but not entered (the spec's
graphs have none).  Structural fuel makes the recursion kernel-reducible;
`dfsFuel` always suffices. -/
def dfsStack (g : Graph) : Nat → List Frame → List Nat → List Visit × List Nat
  | 0, _, visited => ([], visited)
  | _ + 1, [], visited => ([], visited)
  | fuel + 1, ⟨u, par, []⟩ :: s, visited =>
    let r := dfsStack g fuel s visited
    (Visit.retreat u par :: r.1, r.2)
  | fuel + 1, ⟨u, par, v :: rest⟩ :: s, visited =>
    if decide (v ∈ visited) then
      let r := dfsStack g fuel (⟨u, par, rest⟩ :: s) visited
      (Visit.edge u v Status.again :: r.1, r.2)
    else if decide (v ∈ g.nodes) then
      let r := dfsStack g fuel
        (⟨v, some u, g.outN v⟩ :: ⟨u, par, rest⟩ :: s) (v :: visited)
      (Visit.edge u v Status.fresh :: r.1, r.2)
    else
      let r := dfsStack g fuel (⟨u, par, rest⟩ :: s) visited
      (Visit.edge u v Status.fresh :: r.1, r.2)

/-- Modelled from the spec: the root loop of the DFS — when the stack has
drained, the next unvisited node in `nodes()` order becomes a new root. -/
def dfsRoots (g : Graph) : List Nat → List Nat → List Visit
  | [], _ => []
  | p :: rest, visited =>
    if decide (p ∈ visited) then dfsRoots g rest visited
    else
      let r := dfsStack g (dfsFuel g [⟨p, none, g.outN p⟩] (p :: visited))
        [⟨p, none, g.outN p⟩] (p :: visited)
      Visit.root p :: (r.1 ++ dfsRoots g rest r.2)

/-- Modelled from the spec: the full DFS event stream. -/
def dfs (g : Graph) : List Visit := dfsRoots g g.nodes []

/-- The event-processing loop of `GraphRef::top_sort`: maintain the
`visiting` set, abort on an edge into it, record nodes in retreat order.
(The source's two internal assertions always hold and are not modelled as
panics.)  Returns the final state so that processing composes. -/
def tsProcess : List Nat → List Nat → List Visit → Option (List Nat × List Nat)
  | visiting, acc, [] => some (visiting, acc)
  | visiting, acc, Visit.root u :: evs => tsProcess (u :: visiting) acc evs
  | visiting, acc, Visit.edge _ dst st :: evs =>
    if decide (dst ∈ visiting) then none
    else
      match st with
      | Status.fresh => tsProcess (dst :: visiting) acc evs
      | Status.again => tsProcess visiting acc evs
  | visiting, acc, Visit.retreat u _ :: evs =>
    tsProcess (visiting.filter (fun x => decide (x ≠ u))) (acc ++ [u]) evs

/-- `GraphRef::top_sort`: process the DFS stream and reverse the retreat
order. -/
def topSort (g : Graph) : Option (List Nat) :=
  (tsProcess [] [] (dfs g)).map (fun p => p.2.reverse)

/-- The itertools `tuples()` adaptor used by `linear_order`:
non-overlapping consecutive pairs, any trailing element dropped. -/
def chunkPairs : List Nat → List (Nat × Nat)
  | a :: b :: rest => (a, b) :: chunkPairs rest
  | _ => []

/-- `GraphRef::linear_order`: require a direct edge inside each pair
produced by `tuples()`. -/
def linearOrder (g : Graph) : Option (List Nat) :=
  match topSort g with
  | none => none
  | some top =>
    if (chunkPairs top).all (fun p => decide (p.2 ∈ g.outN p.1)) then some top
    else none

/-- Every out-neighbor of a node is a node (the trait's implicit
contract; digle graphs satisfy it by invariant I2). -/
def Closed (g : Graph) : Prop := ∀ u ∈ g.nodes, ∀ v ∈ g.outN u, v ∈ g.nodes

instance (g : Graph) : Decidable (Closed g) := by
  unfold Closed; infer_instance

/-- Directed reachability along out-edges. -/
inductive Walk (g : Graph) : Nat → Nat → Prop
  | refl (u : Nat) : Walk g u u
  | step {u v w : Nat} : v ∈ g.outN u → Walk g v w → Walk g u w

/-- A directed cycle through a node of the graph. -/
def HasCycle (g : Graph) : Prop :=
  ∃ u v, u ∈ g.nodes ∧ v ∈ g.outN u ∧ Walk g v u

/-- The counterexample graph for C3: edges 0 → 1 and 2 → 3 only. -/
def exGraphC3 : Graph :=
  ⟨[0, 1, 2, 3],
   fun u => if u = 0 then [1] else if u = 2 then [3] else [],
   fun u => if u = 1 then [0] else if u = 3 then [2] else []⟩

/-- C3: FAILS on the code.  `linear_order` iterates `top.iter().tuples()`,
the itertools adaptor yielding non-overlapping chunked pairs, not
`tuple_windows()`; so for the 4-node sort `[2, 3, 0, 1]` only the pairs
`(2, 3)` and `(0, 1)` are checked and the missing edge `3 → 0` goes
unnoticed: `linear_order` returns the sort although the claim (and the
function's own comment) requires `None`. -/
theorem c3_linearOrder_checks_chunked_pairs :
    topSort exGraphC3 = some [2, 3, 0, 1] ∧
    linearOrder exGraphC3 = some [2, 3, 0, 1] ∧
    ¬(0 ∈ exGraphC3.outN 3) ∧ ¬(3 ∈ exGraphC3.outN 0) := by
  refine ⟨by decide, by decide, by decide, by decide⟩

/-! ### Fusing `top_sort` with the DFS (proof device) -/

/-- The composition of `tsProcess` with the DFS, computed directly on the
DFS machine state: the `visiting` set of `top_sort` is exactly the set of
stack nodes, so the cycle check becomes a stack-membership test. -/
def tsStack (g : Graph) : Nat → List Frame → List Nat → List Nat →
    Option (List Nat × List Nat)
  | 0, _, visited, acc => some (acc, visited)
  | _ + 1, [], visited, acc => some (acc, visited)
  | fuel + 1, ⟨u, _, []⟩ :: s, visited, acc => tsStack g fuel s visited (acc ++ [u])
  | fuel + 1, ⟨u, par, v :: rest⟩ :: s, visited, acc =>
    if decide (v ∈ visited) then
      if decide (v ∈ u :: stackNodes s) then none
      else tsStack g fuel (⟨u, par, rest⟩ :: s) visited acc
    else if decide (v ∈ g.nodes) then
      tsStack g fuel (⟨v, some u, g.outN v⟩ :: ⟨u, par, rest⟩ :: s) (v :: visited) acc
    else tsStack g fuel (⟨u, par, rest⟩ :: s) visited acc

theorem sumRem_cons (f : Frame) (s : List Frame) :
    sumRem (f :: s) = f.rest.length + sumRem s := by
  simp [sumRem]

theorem stackNodes_cons (f : Frame) (s : List Frame) :
    stackNodes (f :: s) = f.u :: stackNodes s := rfl

theorem length_filter_mono (l : List α) (p q : α → Bool)
    (h : ∀ x ∈ l, p x = true → q x = true) :
    (l.filter p).length ≤ (l.filter q).length := by
  induction l with
  | nil => simp
  | cons a t ih =>
    have iht := ih (fun x hx => h x (List.mem_cons_of_mem a hx))
    simp only [List.filter_cons]
    by_cases hp : p a = true
    · rw [if_pos hp, if_pos (h a (List.mem_cons_self a t) hp)]
      simpa using Nat.succ_le_succ iht
    · rw [if_neg hp]
      split
      · exact Nat.le_succ_of_le iht
      · exact iht

theorem filter_notmem_cons_lt (l visited : List Nat) (v : Nat)
    (hv : v ∈ l) (hnv : v ∉ visited) :
    (l.filter (fun x => !(decide (x ∈ v :: visited)))).length <
      (l.filter (fun x => !(decide (x ∈ visited)))).length := by
  induction l with
  | nil => cases hv
  | cons a t ih =>
    have hmono := length_filter_mono t
      (fun x => !(decide (x ∈ v :: visited))) (fun x => !(decide (x ∈ visited)))
      (fun x _ hpx => by
        simp only [Bool.not_eq_true', decide_eq_false_iff_not] at hpx ⊢
        exact fun hmem => hpx (List.mem_cons_of_mem _ hmem))
    simp only [List.filter_cons]
    by_cases hav : a = v
    · subst hav
      rw [if_neg (by simp), if_pos (by simp [hnv])]
      exact Nat.lt_succ_of_le hmono
    · have hmem : v ∈ t := by
        rcases List.mem_cons.1 hv with h | h
        · exact absurd h.symm hav
        · exact h
      by_cases hax : a ∈ visited
      · rw [if_neg (by simp [hax]), if_neg (by simp [hax])]
        exact ih hmem
      · rw [if_pos (by simp [hax, hav]), if_pos (by simp [hax])]
        exact Nat.succ_lt_succ (ih hmem)

theorem countNew_cons_lt (g : Graph) (v : Nat) (visited : List Nat)
    (hv : v ∈ g.nodes) (hnv : v ∉ visited) :
    countNew g (v :: visited) < countNew g visited :=
  filter_notmem_cons_lt g.nodes visited v hv hnv

theorem outdeg_le_totalOut (g : Graph) (v : Nat) (hv : v ∈ g.nodes) :
    (g.outN v).length ≤ totalOut g :=
  List.single_le_sum (fun x _ => Nat.zero_le x) _ (List.mem_map.2 ⟨v, hv, rfl⟩)

theorem tsStack_visited (g : Graph) : ∀ (fuel : Nat) (stack : List Frame)
    (visited acc accF visF : List Nat),
    tsStack g fuel stack visited acc = some (accF, visF) →
    (dfsStack g fuel stack visited).2 = visF := by
  intro fuel
  induction fuel with
  | zero =>
    intro stack visited acc accF visF h
    simp only [tsStack, Option.some.injEq, Prod.mk.injEq] at h
    simp only [dfsStack]
    exact h.2
  | succ n ih =>
    intro stack visited acc accF visF h
    match stack with
    | [] =>
      simp only [tsStack, Option.some.injEq, Prod.mk.injEq] at h
      simp only [dfsStack]
      exact h.2
    | ⟨u, par, []⟩ :: s =>
      simp only [tsStack] at h
      simp only [dfsStack]
      exact ih s visited (acc ++ [u]) accF visF h
    | ⟨u, par, v :: rest⟩ :: s =>
      simp only [tsStack] at h
      simp only [dfsStack]
      by_cases h1 : v ∈ visited
      · rw [if_pos (by simpa)] at h
        rw [if_pos (by simpa)]
        by_cases h2 : v ∈ u :: stackNodes s
        · rw [if_pos (by simpa using h2)] at h
          cases h
        · rw [if_neg (by simpa using h2)] at h
          exact ih _ visited acc accF visF h
      · rw [if_neg (by simpa)] at h
        rw [if_neg (by simpa)]
        by_cases h2 : v ∈ g.nodes
        · rw [if_pos (by simpa)] at h
          rw [if_pos (by simpa)]
          exact ih _ (v :: visited) acc accF visF h
        · rw [if_neg (by simpa)] at h
          rw [if_neg (by simpa)]
          exact ih _ visited acc accF visF h

theorem tsProcess_append (l1 l2 : List Visit) : ∀ vis acc,
    tsProcess vis acc (l1 ++ l2) =
      match tsProcess vis acc l1 with
      | none => none
      | some r => tsProcess r.1 r.2 l2 := by
  induction l1 with
  | nil => intro vis acc; rfl
  | cons e t ih =>
    intro vis acc
    cases e with
    | root u =>
      simp only [List.cons_append, tsProcess]
      exact ih _ _
    | edge src dst st =>
      simp only [List.cons_append, tsProcess]
      split
      · rfl
      · cases st
        · exact ih _ _
        · exact ih _ _
    | retreat u par =>
      simp only [List.cons_append, tsProcess]
      exact ih _ _

theorem tsProcess_dfsStack (g : Graph) (hcl : Closed g) : ∀ (fuel : Nat)
    (stack : List Frame) (visited visiting acc : List Nat),
    dfsMeasure g stack visited < fuel →
    (∀ f ∈ stack, f.u ∈ g.nodes ∧ ∀ v ∈ f.rest, v ∈ g.outN f.u) →
    (stackNodes stack).Nodup →
    (∀ x ∈ stackNodes stack, x ∈ visited) →
    (∀ x, x ∈ visiting ↔ x ∈ stackNodes stack) →
    tsProcess visiting acc (dfsStack g fuel stack visited).1 =
      (tsStack g fuel stack visited acc).map (fun r => (([] : List Nat), r.1)) := by
  intro fuel
  induction fuel with
  | zero =>
    intro stack visited visiting acc hm _ _ _ _
    exact absurd hm (Nat.not_lt_zero _)
  | succ n ih =>
    intro stack visited visiting acc hm hfr hnd hsub hiff
    match stack with
    | [] =>
      have hnil : visiting = [] := by
        refine List.eq_nil_iff_forall_not_mem.2 (fun x hx => ?_)
        have := (hiff x).1 hx
        simp [stackNodes] at this
      simp [dfsStack, tsStack, tsProcess, hnil]
    | ⟨u, par, []⟩ :: s =>
      have hms : dfsMeasure g s visited < n := by
        have e1 : dfsMeasure g (⟨u, par, []⟩ :: s) visited
            = dfsMeasure g s visited + 1 := by
          simp only [dfsMeasure, sumRem_cons, List.length_cons, List.length_nil]
          omega
        omega
      have hfr' : ∀ f ∈ s, f.u ∈ g.nodes ∧ ∀ v ∈ f.rest, v ∈ g.outN f.u :=
        fun f hf => hfr f (List.mem_cons_of_mem _ hf)
      have hndu : u ∉ stackNodes s := (List.nodup_cons.1 hnd).1
      have hnd' : (stackNodes s).Nodup := (List.nodup_cons.1 hnd).2
      have hsub' : ∀ x ∈ stackNodes s, x ∈ visited :=
        fun x hx => hsub x (List.mem_cons_of_mem _ hx)
      have hiff' : ∀ x, x ∈ visiting.filter (fun x => decide (x ≠ u)) ↔
          x ∈ stackNodes s := by
        intro x
        rw [List.mem_filter]
        constructor
        · rintro ⟨hx1, hx2⟩
          simp only [decide_eq_true_eq] at hx2
          rcases List.mem_cons.1 ((hiff x).1 hx1) with rfl | hx3
          · exact absurd rfl hx2
          · exact hx3
        · intro hx
          have hne : x ≠ u := fun hh => hndu (hh ▸ hx)
          exact ⟨(hiff x).2 (List.mem_cons_of_mem _ hx), by simp [hne]⟩
      simp only [dfsStack, tsStack, tsProcess]
      exact ih s visited _ (acc ++ [u]) hms hfr' hnd' hsub' hiff'
    | ⟨u, par, v :: rest⟩ :: s =>
      obtain ⟨hun, hall⟩ := hfr _ (List.mem_cons_self _ _)
      by_cases hv1 : v ∈ visited
      · -- repeat edge
        simp only [dfsStack, tsStack]
        rw [if_pos (by simpa using hv1), if_pos (by simpa using hv1)]
        simp only [tsProcess]
        by_cases hv2 : v ∈ u :: stackNodes s
        · rw [if_pos (by simpa using (hiff v).2 hv2),
            if_pos (by simpa using hv2)]
          rfl
        · rw [if_neg (by
            simp only [decide_eq_true_eq]
            exact fun hc => hv2 ((hiff v).1 hc)),
            if_neg (by simpa using hv2)]
          have hms : dfsMeasure g (⟨u, par, rest⟩ :: s) visited < n := by
            have e1 : dfsMeasure g (⟨u, par, v :: rest⟩ :: s) visited
                = dfsMeasure g (⟨u, par, rest⟩ :: s) visited + 1 := by
              simp only [dfsMeasure, sumRem_cons, List.length_cons]
              omega
            omega
          have hfr' : ∀ f ∈ (⟨u, par, rest⟩ :: s : List Frame),
              f.u ∈ g.nodes ∧ ∀ w ∈ f.rest, w ∈ g.outN f.u := by
            intro f hf
            rcases List.mem_cons.1 hf with rfl | hf
            · exact ⟨hun, fun w hw => hall w (List.mem_cons_of_mem _ hw)⟩
            · exact hfr f (List.mem_cons_of_mem _ hf)
          exact ih _ visited visiting acc hms hfr' hnd hsub hiff
      · -- fresh edge
        simp only [dfsStack, tsStack]
        have hvv : ¬(decide (v ∈ visited) = true) := by simpa using hv1
        rw [if_neg hvv, if_neg hvv]
        have hvnotvising : v ∉ visiting :=
          fun hc => hv1 (hsub v ((hiff v).1 hc))
        by_cases hv2 : v ∈ g.nodes
        · have hvn : decide (v ∈ g.nodes) = true := by simpa using hv2
          rw [if_pos hvn, if_pos hvn]
          simp only [tsProcess]
          rw [if_neg (show ¬(decide (v ∈ visiting) = true) by
            simpa using hvnotvising)]
          have hms : dfsMeasure g
              (⟨v, some u, g.outN v⟩ :: ⟨u, par, rest⟩ :: s) (v :: visited) < n := by
            have hc := countNew_cons_lt g v visited hv2 hv1
            have ho := outdeg_le_totalOut g v hv2
            have hmul : countNew g (v :: visited) * (totalOut g + 1) + (totalOut g + 1)
                ≤ countNew g visited * (totalOut g + 1) := by
              have h2 : countNew g (v :: visited) + 1 ≤ countNew g visited := hc
              calc countNew g (v :: visited) * (totalOut g + 1) + (totalOut g + 1)
                  = (countNew g (v :: visited) + 1) * (totalOut g + 1) := by ring
                _ ≤ countNew g visited * (totalOut g + 1) :=
                  Nat.mul_le_mul_right _ h2
            simp only [dfsMeasure, sumRem_cons, List.length_cons] at hm ⊢
            omega
          have hfr' : ∀ f ∈ (⟨v, some u, g.outN v⟩ :: ⟨u, par, rest⟩ :: s : List Frame),
              f.u ∈ g.nodes ∧ ∀ w ∈ f.rest, w ∈ g.outN f.u := by
            intro f hf
            rcases List.mem_cons.1 hf with rfl | hf
            · exact ⟨hv2, fun w hw => hw⟩
            · rcases List.mem_cons.1 hf with rfl | hf
              · exact ⟨hun, fun w hw => hall w (List.mem_cons_of_mem _ hw)⟩
              · exact hfr f (List.mem_cons_of_mem _ hf)
          have hvnots : v ∉ u :: stackNodes s :=
            fun hc => hv1 (hsub v hc)
          have hnd' : (stackNodes
              (⟨v, some u, g.outN v⟩ :: ⟨u, par, rest⟩ :: s : List Frame)).Nodup :=
            List.nodup_cons.2 ⟨hvnots, hnd⟩
          have hsub' : ∀ x ∈ stackNodes
              (⟨v, some u, g.outN v⟩ :: ⟨u, par, rest⟩ :: s : List Frame),
              x ∈ v :: visited := by
            intro x hx
            rcases List.mem_cons.1 hx with rfl | hx
            · exact List.mem_cons_self _ _
            · exact List.mem_cons_of_mem _ (hsub x hx)
          have hiff' : ∀ x, x ∈ v :: visiting ↔ x ∈ stackNodes
              (⟨v, some u, g.outN v⟩ :: ⟨u, par, rest⟩ :: s : List Frame) := by
            intro x
            have h0 := hiff x
            simp only [stackNodes_cons, List.mem_cons] at h0 ⊢
            rw [h0]
          exact ih _ (v :: visited) (v :: visiting) acc hms hfr' hnd' hsub' hiff'
        · exact absurd (hcl u hun v (hall v (List.mem_cons_self _ _))) hv2

/-- The roots loop of `top_sort`, fused with the DFS roots loop: carries the
accumulated retreat order and the visited set across root calls. -/
def tsRoots (g : Graph) : List Nat → List Nat → List Nat →
    Option (List Nat × List Nat)
  | [], visited, acc => some (acc, visited)
  | p :: rest, visited, acc =>
    if decide (p ∈ visited) then tsRoots g rest visited acc
    else
      match tsStack g (dfsFuel g [⟨p, none, g.outN p⟩] (p :: visited))
          [⟨p, none, g.outN p⟩] (p :: visited) acc with
      | none => none
      | some r => tsRoots g rest r.2 r.1

theorem tsProcess_dfsRoots (g : Graph) (hcl : Closed g) :
    ∀ (pend : List Nat), (∀ p ∈ pend, p ∈ g.nodes) →
    ∀ (visited acc : List Nat),
    tsProcess [] acc (dfsRoots g pend visited) =
      (tsRoots g pend visited acc).map (fun r => (([] : List Nat), r.1)) := by
  intro pend
  induction pend with
  | nil =>
    intro _ visited acc
    simp [dfsRoots, tsRoots, tsProcess]
  | cons p rest ih =>
    intro hp visited acc
    by_cases hpv : p ∈ visited
    · have hd : decide (p ∈ visited) = true := by simpa using hpv
      simp only [dfsRoots, tsRoots, hd, if_true]
      exact ih (fun q hq => hp q (List.mem_cons_of_mem _ hq)) visited acc
    · have hd : ¬(decide (p ∈ visited) = true) := by simpa using hpv
      rw [dfsRoots, if_neg hd, tsRoots, if_neg hd]
      simp only [tsProcess]
      rw [tsProcess_append]
      have hpn : p ∈ g.nodes := hp p (List.mem_cons_self _ _)
      have hfus := tsProcess_dfsStack g hcl
        (dfsFuel g [⟨p, none, g.outN p⟩] (p :: visited))
        [⟨p, none, g.outN p⟩] (p :: visited) [p] acc
        (Nat.lt_succ_self _)
        (by
          intro f hf
          rcases List.mem_cons.1 hf with rfl | hf
          · exact ⟨hpn, fun w hw => hw⟩
          · simp at hf)
        (by simp [stackNodes])
        (by
          intro x hx
          simp only [stackNodes, List.map_cons, List.map_nil,
            List.mem_singleton] at hx
          exact hx ▸ List.mem_cons_self _ _)
        (by intro x; rfl)
      rw [hfus]
      cases htss : tsStack g (dfsFuel g [⟨p, none, g.outN p⟩] (p :: visited))
          [⟨p, none, g.outN p⟩] (p :: visited) acc with
      | none => rfl
      | some q =>
        simp only [Option.map_some]
        have hvis := tsStack_visited g _ _ _ _ q.1 q.2 (by rw [htss])
        rw [hvis]
        exact ih (fun w hw => hp w (List.mem_cons_of_mem _ hw)) q.2 q.1

theorem topSort_eq_tsRoots (g : Graph) (hcl : Closed g) :
    topSort g = (tsRoots g g.nodes [] []).map (fun r => r.1.reverse) := by
  unfold topSort dfs
  rw [tsProcess_dfsRoots g hcl g.nodes (fun p hp => hp) [] []]
  cases tsRoots g g.nodes [] [] with
  | none => rfl
  | some r => rfl

/-- Invariant of the DFS stack as seen by `top_sort`: each frame's node is in
the graph, the frame directly above it (the `child`) is one of its
out-neighbors, and every already-processed out-neighbor has either retreated
(is in `acc`) or is the child currently being explored. -/
def StackOKFrom (g : Graph) (acc : List Nat) : Option Nat → List Frame → Prop
  | _, [] => True
  | child, f :: s =>
    f.u ∈ g.nodes ∧
    (∀ c, child = some c → c ∈ g.outN f.u) ∧
    (∃ pre, g.outN f.u = pre ++ f.rest ∧ ∀ v ∈ pre, v ∈ acc ∨ child = some v) ∧
    StackOKFrom g acc (some f.u) s

/-- The retreat order is reverse-topological: every out-neighbor of a node
appears strictly before it. -/
def AccOK (g : Graph) (acc : List Nat) : Prop :=
  ∀ l1 u l2, acc = l1 ++ u :: l2 → ∀ v ∈ g.outN u, v ∈ l1

theorem stackOK_mono (g : Graph) (acc acc' : List Nat)
    (hsub : ∀ x ∈ acc, x ∈ acc') :
    ∀ (s : List Frame) (k : Option Nat),
    StackOKFrom g acc k s → StackOKFrom g acc' k s := by
  intro s
  induction s with
  | nil => intro k _; trivial
  | cons f t ih =>
    intro k hk
    obtain ⟨h1, h2, ⟨pre, hpre, hmem⟩, hrec⟩ := hk
    refine ⟨h1, h2, ⟨pre, hpre, ?_⟩, ih _ hrec⟩
    intro v hv
    rcases hmem v hv with h | h
    · exact Or.inl (hsub v h)
    · exact Or.inr h

theorem stackOK_retreat (g : Graph) (acc : List Nat) (c : Nat)
    (s : List Frame) (h : StackOKFrom g acc (some c) s) :
    StackOKFrom g (acc ++ [c]) none s := by
  cases s with
  | nil => trivial
  | cons f t =>
    obtain ⟨h1, _, ⟨pre, hpre, hmem⟩, hrec⟩ := h
    refine ⟨h1, ?_, ⟨pre, hpre, ?_⟩,
      stackOK_mono g acc _ (fun x hx => List.mem_append_left _ hx) _ _ hrec⟩
    · intro c' hc'
      exact Option.noConfusion hc'
    · intro v hv
      rcases hmem v hv with h | h
      · exact Or.inl (List.mem_append_left _ h)
      · exact Or.inl (List.mem_append_right _ (by
          simp only [Option.some.injEq] at h
          simp [h]))

theorem append_singleton_split {α : Type} (acc l1 l2 : List α) (w u : α)
    (h : l1 ++ w :: l2 = acc ++ [u]) :
    (l1 = acc ∧ w = u ∧ l2 = []) ∨
      ∃ l2', l2 = l2' ++ [u] ∧ acc = l1 ++ w :: l2' := by
  rcases List.eq_nil_or_concat l2 with rfl | ⟨l2', a, rfl⟩
  · have := List.append_inj' h (by rfl)
    refine Or.inl ⟨this.1, ?_, rfl⟩
    simpa using this.2
  · have h' : (l1 ++ w :: l2') ++ [a] = acc ++ [u] := by
      simpa using h
    have := List.append_inj' h' (by rfl)
    refine Or.inr ⟨l2', ?_, this.1.symm⟩
    have ha : a = u := by simpa using this.2
    rw [ha, List.concat_eq_append]

theorem accOK_snoc (g : Graph) (acc : List Nat) (u : Nat)
    (hacc : AccOK g acc) (hout : ∀ v ∈ g.outN u, v ∈ acc) :
    AccOK g (acc ++ [u]) := by
  intro l1 w l2 heq v hv
  rcases append_singleton_split acc l1 l2 w u heq.symm with ⟨rfl, rfl, rfl⟩ | ⟨l2', _, heq2⟩
  · exact hout v hv
  · exact hacc l1 w l2' heq2 v hv

theorem walk_trans (g : Graph) {a b c : Nat}
    (h1 : Walk g a b) (h2 : Walk g b c) : Walk g a c := by
  induction h1 with
  | refl => exact h2
  | step he _ ih => exact Walk.step he (ih h2)

theorem stack_chain (g : Graph) (acc : List Nat) : ∀ (s : List Frame)
    (c : Nat), StackOKFrom g acc (some c) s →
    ∀ w ∈ stackNodes s, Walk g w c := by
  intro s
  induction s with
  | nil =>
    intro c _ w hw
    simp [stackNodes] at hw
  | cons f t ih =>
    intro c hk w hw
    obtain ⟨_, h2, _, hrec⟩ := hk
    have hcout : c ∈ g.outN f.u := h2 c rfl
    rcases List.mem_cons.1 hw with rfl | hw
    · exact Walk.step hcout (Walk.refl c)
    · exact walk_trans g (ih f.u hrec w hw) (Walk.step hcout (Walk.refl c))

theorem tsStack_main (g : Graph) (hcl : Closed g) : ∀ (fuel : Nat)
    (stack : List Frame) (visited acc : List Nat),
    dfsMeasure g stack visited < fuel →
    StackOKFrom g acc none stack →
    (acc ++ stackNodes stack).Nodup →
    (∀ x ∈ visited, x ∈ g.nodes) →
    (∀ x, x ∈ visited ↔ (x ∈ acc ∨ x ∈ stackNodes stack)) →
    AccOK g acc →
    (tsStack g fuel stack visited acc = none → HasCycle g) ∧
    (∀ accF visF, tsStack g fuel stack visited acc = some (accF, visF) →
      (∃ t, accF = acc ++ t) ∧ accF.Nodup ∧ AccOK g accF ∧
      (∀ x, x ∈ visF ↔ x ∈ accF) ∧ (∀ x ∈ visited, x ∈ visF) ∧
      (∀ x ∈ visF, x ∈ g.nodes)) := by
  intro fuel
  induction fuel with
  | zero =>
    intro stack visited acc hm _ _ _ _ _
    exact absurd hm (Nat.not_lt_zero _)
  | succ n ih =>
    intro stack visited acc hm hso hnd hvn hviseq hacc
    match stack with
    | [] =>
      constructor
      · intro h
        exact absurd h (by simp [tsStack])
      · intro accF visF h
        simp only [tsStack, Option.some.injEq, Prod.mk.injEq] at h
        obtain ⟨h1, h2⟩ := h
        subst h1; subst h2
        refine ⟨⟨[], by simp⟩, by simpa [stackNodes] using hnd, hacc, ?_,
          fun x hx => hx, hvn⟩
        intro x
        have h0 := hviseq x
        simpa [stackNodes] using h0
    | ⟨u, par, []⟩ :: s =>
      simp only [StackOKFrom] at hso
      obtain ⟨hun, _, ⟨pre, hpre, hmem⟩, hrec⟩ := hso
      have houtacc : ∀ v ∈ g.outN u, v ∈ acc := by
        intro v hv
        rw [hpre, List.append_nil] at hv
        rcases hmem v hv with h | h
        · exact h
        · exact Option.noConfusion h
      have heq : tsStack g (n + 1) (⟨u, par, []⟩ :: s) visited acc
          = tsStack g n s visited (acc ++ [u]) := rfl
      rw [heq]
      have hms : dfsMeasure g s visited < n := by
        have e1 : dfsMeasure g (⟨u, par, []⟩ :: s) visited
            = dfsMeasure g s visited + 1 := by
          simp only [dfsMeasure, sumRem_cons, List.length_cons, List.length_nil]
          omega
        omega
      have hso' : StackOKFrom g (acc ++ [u]) none s := stackOK_retreat g acc u s hrec
      have hnd' : ((acc ++ [u]) ++ stackNodes s).Nodup := by
        simpa [stackNodes_cons, List.append_assoc] using hnd
      have hviseq' : ∀ x, x ∈ visited ↔ (x ∈ acc ++ [u] ∨ x ∈ stackNodes s) := by
        intro x
        rw [hviseq x]
        simp only [stackNodes_cons, List.mem_cons, List.mem_append,
          List.mem_singleton]
        tauto
      have hacc' : AccOK g (acc ++ [u]) := accOK_snoc g acc u hacc houtacc
      obtain ⟨hnone, hsome⟩ := ih s visited (acc ++ [u]) hms hso' hnd' hvn hviseq' hacc'
      refine ⟨hnone, ?_⟩
      intro accF visF h
      obtain ⟨⟨t, ht⟩, hnd2, hacc2, hiff2, hsub2, hnodes2⟩ := hsome accF visF h
      refine ⟨⟨u :: t, ?_⟩, hnd2, hacc2, hiff2, hsub2, hnodes2⟩
      rw [ht]
      simp
    | ⟨u, par, v :: rest⟩ :: s =>
      simp only [StackOKFrom] at hso
      obtain ⟨hun, _, ⟨pre, hpre, hmem⟩, hrec⟩ := hso
      have hvout : v ∈ g.outN u := by
        rw [hpre]
        exact List.mem_append_right _ (List.mem_cons_self _ _)
      by_cases hv1 : v ∈ visited
      · by_cases hv2 : v ∈ u :: stackNodes s
        · have heq : tsStack g (n + 1) (⟨u, par, v :: rest⟩ :: s) visited acc
              = none := by
            simp only [tsStack]
            rw [if_pos (by simpa using hv1), if_pos (by simpa using hv2)]
          rw [heq]
          constructor
          · intro _
            refine ⟨u, v, hun, hvout, ?_⟩
            rcases List.mem_cons.1 hv2 with rfl | hv3
            · exact Walk.refl _
            · exact stack_chain g acc s u hrec v hv3
          · intro accF visF h
            exact Option.noConfusion h
        · have hvacc : v ∈ acc := by
            rcases (hviseq v).1 hv1 with h | h
            · exact h
            · exact absurd (by simpa [stackNodes_cons] using h) hv2
          have heq : tsStack g (n + 1) (⟨u, par, v :: rest⟩ :: s) visited acc
              = tsStack g n (⟨u, par, rest⟩ :: s) visited acc := by
            simp only [tsStack]
            rw [if_pos (by simpa using hv1), if_neg (by simpa using hv2)]
          rw [heq]
          have hms : dfsMeasure g (⟨u, par, rest⟩ :: s) visited < n := by
            have e1 : dfsMeasure g (⟨u, par, v :: rest⟩ :: s) visited
                = dfsMeasure g (⟨u, par, rest⟩ :: s) visited + 1 := by
              simp only [dfsMeasure, sumRem_cons, List.length_cons]
              omega
            omega
          have hso' : StackOKFrom g acc none (⟨u, par, rest⟩ :: s) := by
            simp only [StackOKFrom]
            refine ⟨hun, fun c hc => Option.noConfusion hc,
              ⟨pre ++ [v], ?_, ?_⟩, hrec⟩
            · rw [hpre]
              simp
            · intro w hw
              rcases List.mem_append.1 hw with hw | hw
              · exact hmem w hw
              · have hwv : w = v := by simpa using hw
                exact Or.inl (hwv ▸ hvacc)
          exact ih _ visited acc hms hso' hnd hvn hviseq hacc
      · by_cases hv2 : v ∈ g.nodes
        · have heq : tsStack g (n + 1) (⟨u, par, v :: rest⟩ :: s) visited acc
              = tsStack g n (⟨v, some u, g.outN v⟩ :: ⟨u, par, rest⟩ :: s)
                  (v :: visited) acc := by
            simp only [tsStack]
            have hvv : ¬(decide (v ∈ visited) = true) := by simpa using hv1
            rw [if_neg hvv,
              if_pos (show decide (v ∈ g.nodes) = true by simpa using hv2)]
          rw [heq]
          have hms : dfsMeasure g
              (⟨v, some u, g.outN v⟩ :: ⟨u, par, rest⟩ :: s) (v :: visited) < n := by
            have hc := countNew_cons_lt g v visited hv2 hv1
            have ho := outdeg_le_totalOut g v hv2
            have hmul : countNew g (v :: visited) * (totalOut g + 1) + (totalOut g + 1)
                ≤ countNew g visited * (totalOut g + 1) := by
              calc countNew g (v :: visited) * (totalOut g + 1) + (totalOut g + 1)
                  = (countNew g (v :: visited) + 1) * (totalOut g + 1) := by ring
                _ ≤ countNew g visited * (totalOut g + 1) :=
                  Nat.mul_le_mul_right _ hc
            simp only [dfsMeasure, sumRem_cons, List.length_cons] at hm ⊢
            omega
          have hvnotacc : v ∉ acc := fun hc => hv1 ((hviseq v).2 (Or.inl hc))
          have hvnotstack : v ∉ stackNodes (⟨u, par, v :: rest⟩ :: s) :=
            fun hc => hv1 ((hviseq v).2 (Or.inr hc))
          have hso' : StackOKFrom g acc none
              (⟨v, some u, g.outN v⟩ :: ⟨u, par, rest⟩ :: s) := by
            simp only [StackOKFrom]
            refine ⟨hv2, fun c hc => Option.noConfusion hc,
              ⟨[], by simp, fun w hw => absurd hw (List.not_mem_nil w)⟩,
              hun, ?_, ⟨pre ++ [v], ?_, ?_⟩, hrec⟩
            · intro c hc
              exact (Option.some.inj hc) ▸ hvout
            · rw [hpre]
              simp
            · intro w hw
              rcases List.mem_append.1 hw with hw | hw
              · rcases hmem w hw with h | h
                · exact Or.inl h
                · exact Option.noConfusion h
              · have hwv : w = v := by simpa using hw
                exact Or.inr (by rw [hwv])
          have hnd' : (acc ++ stackNodes
              (⟨v, some u, g.outN v⟩ :: ⟨u, par, rest⟩ :: s)).Nodup := by
            have h0 : (v :: (acc ++ stackNodes (⟨u, par, rest⟩ :: s))).Nodup := by
              refine List.nodup_cons.2 ⟨?_, hnd⟩
              intro hc
              rcases List.mem_append.1 hc with h | h
              · exact hvnotacc h
              · exact hvnotstack h
            exact List.Perm.nodup List.perm_middle.symm h0
          have hvn' : ∀ x ∈ v :: visited, x ∈ g.nodes := by
            intro x hx
            rcases List.mem_cons.1 hx with rfl | hx
            · exact hv2
            · exact hvn x hx
          have hviseq' : ∀ x, x ∈ v :: visited ↔ (x ∈ acc ∨ x ∈ stackNodes
              (⟨v, some u, g.outN v⟩ :: ⟨u, par, rest⟩ :: s)) := by
            intro x
            have h0 := hviseq x
            simp only [stackNodes_cons, List.mem_cons] at h0
            simp only [List.mem_cons, stackNodes_cons]
            rw [h0]
            tauto
          obtain ⟨hnone, hsome⟩ :=
            ih _ (v :: visited) acc hms hso' hnd' hvn' hviseq' hacc
          refine ⟨hnone, ?_⟩
          intro accF visF h
          obtain ⟨ht, hnd2, hacc2, hiff2, hsub2, hnodes2⟩ := hsome accF visF h
          exact ⟨ht, hnd2, hacc2, hiff2,
            fun x hx => hsub2 x (List.mem_cons_of_mem _ hx), hnodes2⟩
        · exact absurd (hcl u hun v hvout) hv2

theorem tsRoots_main (g : Graph) (hcl : Closed g) : ∀ (pend : List Nat),
    (∀ p ∈ pend, p ∈ g.nodes) →
    ∀ (visited acc : List Nat),
    (∀ x ∈ visited, x ∈ g.nodes) →
    (∀ x, x ∈ visited ↔ x ∈ acc) →
    acc.Nodup →
    AccOK g acc →
    (tsRoots g pend visited acc = none → HasCycle g) ∧
    (∀ accF visF, tsRoots g pend visited acc = some (accF, visF) →
      accF.Nodup ∧ AccOK g accF ∧ (∀ x, x ∈ visF ↔ x ∈ accF) ∧
      (∀ x ∈ visited, x ∈ visF) ∧ (∀ x ∈ visF, x ∈ g.nodes) ∧
      (∀ p ∈ pend, p ∈ visF)) := by
  intro pend
  induction pend with
  | nil =>
    intro _ visited acc hvn hviseq hnd hacc
    constructor
    · intro h
      exact absurd h (by simp [tsRoots])
    · intro accF visF h
      simp only [tsRoots, Option.some.injEq, Prod.mk.injEq] at h
      obtain ⟨h1, h2⟩ := h
      subst h1; subst h2
      exact ⟨hnd, hacc, hviseq, fun x hx => hx, hvn, fun p hp => absurd hp
        (List.not_mem_nil p)⟩
  | cons p rest ih =>
    intro hp visited acc hvn hviseq hnd hacc
    have hpn : p ∈ g.nodes := hp p (List.mem_cons_self _ _)
    by_cases hpv : p ∈ visited
    · have heq : tsRoots g (p :: rest) visited acc
          = tsRoots g rest visited acc := by
        simp only [tsRoots]
        rw [if_pos (by simpa using hpv)]
      rw [heq]
      obtain ⟨hnone, hsome⟩ :=
        ih (fun q hq => hp q (List.mem_cons_of_mem _ hq)) visited acc hvn hviseq hnd hacc
      refine ⟨hnone, ?_⟩
      intro accF visF h
      obtain ⟨h1, h2, h3, h4, h5, h6⟩ := hsome accF visF h
      refine ⟨h1, h2, h3, h4, h5, ?_⟩
      intro q hq
      rcases List.mem_cons.1 hq with rfl | hq
      · exact h4 q hpv
      · exact h6 q hq
    · have hd : ¬(decide (p ∈ visited) = true) := by simpa using hpv
      have hpnotacc : p ∉ acc := fun hc => hpv ((hviseq p).2 hc)
      have hsoS : StackOKFrom g acc none [⟨p, none, g.outN p⟩] := by
        simp only [StackOKFrom]
        exact ⟨hpn, fun c hc => Option.noConfusion hc,
          ⟨[], by simp, fun w hw => absurd hw (List.not_mem_nil w)⟩, trivial⟩
      have hndS : (acc ++ stackNodes [⟨p, none, g.outN p⟩]).Nodup := by
        refine List.nodup_append.2 ⟨hnd, ?_, ?_⟩
        · simp [stackNodes]
        · intro a ha hb
          simp only [stackNodes, List.map_cons, List.map_nil,
            List.mem_singleton] at hb
          exact hpnotacc (hb ▸ ha)
      have hvnS : ∀ x ∈ p :: visited, x ∈ g.nodes := by
        intro x hx
        rcases List.mem_cons.1 hx with rfl | hx
        · exact hpn
        · exact hvn x hx
      have hviseqS : ∀ x, x ∈ p :: visited ↔
          (x ∈ acc ∨ x ∈ stackNodes [⟨p, none, g.outN p⟩]) := by
        intro x
        simp only [List.mem_cons, stackNodes, List.map_cons, List.map_nil,
          List.mem_singleton, List.not_mem_nil, or_false]
        rw [hviseq x]
        tauto
      obtain ⟨hnone1, hsome1⟩ := tsStack_main g hcl
        (dfsFuel g [⟨p, none, g.outN p⟩] (p :: visited))
        [⟨p, none, g.outN p⟩] (p :: visited) acc
        (Nat.lt_succ_self _) hsoS hndS hvnS hviseqS hacc
      cases htss : tsStack g (dfsFuel g [⟨p, none, g.outN p⟩] (p :: visited))
          [⟨p, none, g.outN p⟩] (p :: visited) acc with
      | none =>
        have heq : tsRoots g (p :: rest) visited acc = none := by
          simp only [tsRoots]
          rw [if_neg hd, htss]
        rw [heq]
        exact ⟨fun _ => hnone1 htss, fun accF visF h => Option.noConfusion h⟩
      | some r =>
        have heq : tsRoots g (p :: rest) visited acc
            = tsRoots g rest r.2 r.1 := by
          simp only [tsRoots]
          rw [if_neg hd, htss]
        rw [heq]
        obtain ⟨⟨t, ht⟩, hnd1, hacc1, hiff1, hsub1, hnodes1⟩ :=
          hsome1 r.1 r.2 (by rw [htss])
        obtain ⟨hnone2, hsome2⟩ :=
          ih (fun q hq => hp q (List.mem_cons_of_mem _ hq)) r.2 r.1
            hnodes1 hiff1 hnd1 hacc1
        refine ⟨hnone2, ?_⟩
        intro accF visF h
        obtain ⟨h1, h2, h3, h4, h5, h6⟩ := hsome2 accF visF h
        refine ⟨h1, h2, h3, ?_, h5, ?_⟩
        · intro x hx
          exact h4 x (hsub1 x (List.mem_cons_of_mem _ hx))
        · intro q hq
          rcases List.mem_cons.1 hq with rfl | hq
          · exact h4 q (hsub1 q (List.mem_cons_self _ _))
          · exact h6 q hq

/-- `a` occurs strictly before `b` in `l`. -/
def Before (l : List Nat) (a b : Nat) : Prop :=
  ∃ l1 l2, l = l1 ++ b :: l2 ∧ a ∈ l1

theorem nodup_split_unique {α : Type} (b : α) :
    ∀ (l1 l1' l2 l2' : List α), l1 ++ b :: l2 = l1' ++ b :: l2' →
    (l1 ++ b :: l2).Nodup → l1 = l1' ∧ l2 = l2' := by
  intro l1
  induction l1 with
  | nil =>
    intro l1' l2 l2' h hnd
    cases l1' with
    | nil =>
      simp only [List.nil_append, List.cons.injEq] at h
      exact ⟨rfl, h.2⟩
    | cons x t =>
      simp only [List.nil_append, List.cons_append, List.cons.injEq] at h
      obtain ⟨rfl, h2⟩ := h
      have hb : b ∈ l2 := by
        rw [h2]
        exact List.mem_append_right _ (List.mem_cons_self _ _)
      have hnd2 : (b :: l2).Nodup := hnd
      exact absurd hb (List.nodup_cons.1 hnd2).1
  | cons x t ih =>
    intro l1' l2 l2' h hnd
    cases l1' with
    | nil =>
      simp only [List.cons_append, List.nil_append, List.cons.injEq] at h
      obtain ⟨rfl, h2⟩ := h
      have hx : x ∈ t ++ x :: l2 :=
        List.mem_append_right _ (List.mem_cons_self _ _)
      have hnd2 : (x :: (t ++ x :: l2)).Nodup := hnd
      exact absurd hx (List.nodup_cons.1 hnd2).1
    | cons x' t' =>
      simp only [List.cons_append, List.cons.injEq] at h
      obtain ⟨rfl, h2⟩ := h
      have hnd2 : (x :: (t ++ b :: l2)).Nodup := hnd
      have hnd' : (t ++ b :: l2).Nodup := (List.nodup_cons.1 hnd2).2
      obtain ⟨he1, he2⟩ := ih t' l2 l2' h2 hnd'
      exact ⟨by rw [he1], he2⟩

theorem before_trans (l : List Nat) (hnd : l.Nodup) {a b c : Nat}
    (h1 : Before l a b) (h2 : Before l b c) : Before l a c := by
  obtain ⟨l1, l2, he1, ha⟩ := h1
  obtain ⟨m1, m2, he2, hb⟩ := h2
  obtain ⟨p, q, hm1⟩ := List.append_of_mem hb
  have he3 : l = p ++ b :: (q ++ c :: m2) := by
    rw [he2, hm1]
    simp
  have hu := nodup_split_unique b l1 p l2 (q ++ c :: m2)
    (by rw [← he1, ← he3]) (by rw [← he1]; exact hnd)
  refine ⟨m1, m2, he2, ?_⟩
  rw [hm1]
  exact List.mem_append_left _ (hu.1 ▸ ha)

theorem before_irrefl (l : List Nat) (hnd : l.Nodup) (a : Nat) :
    ¬ Before l a a := by
  rintro ⟨l1, l2, he, ha⟩
  rw [he] at hnd
  exact List.disjoint_of_nodup_append hnd ha (List.mem_cons_self _ _)

theorem walk_before (g : Graph) (l : List Nat) (hnd : l.Nodup)
    (hOK : AccOK g l) {a b : Nat} (hw : Walk g a b) :
    a ∈ l → b ∈ l ∧ (b = a ∨ Before l b a) := by
  induction hw with
  | refl u => intro ha; exact ⟨ha, Or.inl rfl⟩
  | step he hw ih =>
    rename_i u v w
    intro hu
    obtain ⟨l1, l2, hsplit⟩ := List.append_of_mem hu
    have hv1 : v ∈ l1 := hOK l1 u l2 hsplit v he
    have hvl : v ∈ l := by
      rw [hsplit]
      exact List.mem_append_left _ hv1
    obtain ⟨hwl, hcase⟩ := ih hvl
    refine ⟨hwl, Or.inr ?_⟩
    have hbuv : Before l v u := ⟨l1, l2, hsplit, hv1⟩
    rcases hcase with rfl | hbwv
    · exact hbuv
    · exact before_trans l hnd hbwv hbuv

theorem accOK_no_cycle (g : Graph) (l : List Nat) (hnd : l.Nodup)
    (hOK : AccOK g l) (hmem : ∀ x ∈ g.nodes, x ∈ l) : ¬ HasCycle g := by
  rintro ⟨u, v, hun, hvout, hwalk⟩
  have hul : u ∈ l := hmem u hun
  obtain ⟨l1, l2, hsplit⟩ := List.append_of_mem hul
  have hv1 : v ∈ l1 := hOK l1 u l2 hsplit v hvout
  have hvl : v ∈ l := by
    rw [hsplit]
    exact List.mem_append_left _ hv1
  obtain ⟨_, hcase⟩ := walk_before g l hnd hOK hwalk hvl
  have hbvu : Before l v u := ⟨l1, l2, hsplit, hv1⟩
  rcases hcase with rfl | hbuv
  · exact before_irrefl l hnd u hbvu
  · exact before_irrefl l hnd u (before_trans l hnd hbuv hbvu)

theorem accOK_nil (g : Graph) : AccOK g [] := by
  intro l1 u l2 he _ _
  exact absurd he.symm (by simp)

theorem topSort_some_props (g : Graph) (hcl : Closed g) (l : List Nat)
    (h : topSort g = some l) :
    l.Nodup ∧ (∀ x, x ∈ l ↔ x ∈ g.nodes) ∧
    (∀ u v, u ∈ g.nodes → v ∈ g.outN u →
      ∃ l1 l2, l = l1 ++ u :: l2 ∧ v ∈ l2) ∧
    ¬ HasCycle g := by
  rw [topSort_eq_tsRoots g hcl] at h
  cases htr : tsRoots g g.nodes [] [] with
  | none =>
    rw [htr] at h
    exact Option.noConfusion h
  | some r =>
    rw [htr] at h
    have hrl : r.1.reverse = l := by simpa using h
    obtain ⟨_, hsome⟩ := tsRoots_main g hcl g.nodes (fun p hp => hp) [] []
      (fun x hx => absurd hx (List.not_mem_nil x))
      (fun x => by simp)
      List.nodup_nil
      (accOK_nil g)
    obtain ⟨hndF, haccF, hiffF, _, hnodesF, hpendF⟩ :=
      hsome r.1 r.2 (by rw [htr])
    have hmemr : ∀ x, x ∈ r.1 ↔ x ∈ g.nodes := by
      intro x
      constructor
      · intro hx
        exact hnodesF x ((hiffF x).2 hx)
      · intro hx
        exact (hiffF x).1 (hpendF x hx)
    subst hrl
    refine ⟨by simpa using hndF, ?_, ?_, ?_⟩
    · intro x
      rw [List.mem_reverse]
      exact hmemr x
    · intro u v hun hv
      have hur : u ∈ r.1 := (hmemr u).2 hun
      obtain ⟨m1, m2, hsplit⟩ := List.append_of_mem hur
      have hvm : v ∈ m1 := haccF m1 u m2 hsplit v hv
      refine ⟨m2.reverse, m1.reverse, ?_, by simpa using hvm⟩
      rw [hsplit]
      simp
    · exact accOK_no_cycle g r.1 hndF haccF (fun x hx => (hmemr x).2 hx)

theorem topSort_none_iff (g : Graph) (hcl : Closed g) :
    topSort g = none ↔ HasCycle g := by
  constructor
  · intro h
    rw [topSort_eq_tsRoots g hcl] at h
    cases htr : tsRoots g g.nodes [] [] with
    | some r =>
      rw [htr] at h
      exact Option.noConfusion h
    | none =>
      obtain ⟨hnone, _⟩ := tsRoots_main g hcl g.nodes (fun p hp => hp) [] []
        (fun x hx => absurd hx (List.not_mem_nil x))
        (fun x => by simp)
        List.nodup_nil
        (accOK_nil g)
      exact hnone htr
  · intro hcyc
    cases hts : topSort g with
    | none => rfl
    | some l =>
      exact absurd hcyc (topSort_some_props g hcl l hts).2.2.2

/-- C6: for every (closed) graph, if `top_sort` returns `some l` then `l`
lists every node of the graph exactly once and every edge `u → v` has `u`
strictly before `v` in `l`; and `top_sort` returns `none` if and only if
the graph has a directed cycle. -/
theorem c6_topSort (g : Graph) (hcl : Closed g) :
    (∀ l, topSort g = some l →
      (l.Nodup ∧ ∀ x, x ∈ l ↔ x ∈ g.nodes) ∧
      ∀ u v, u ∈ g.nodes → v ∈ g.outN u →
        ∃ l1 l2, l = l1 ++ u :: l2 ∧ v ∈ l2) ∧
    (topSort g = none ↔ HasCycle g) := by
  constructor
  · intro l h
    obtain ⟨h1, h2, h3, _⟩ := topSort_some_props g hcl l h
    exact ⟨⟨h1, h2⟩, h3⟩
  · exact topSort_none_iff g hcl

/-- A two-node cycle used as the concrete input for the C6 witness. -/
def exGraphC6 : Graph :=
  ⟨[0, 1], fun u => if u = 0 then [1] else if u = 1 then [0] else [],
   fun u => if u = 0 then [1] else if u = 1 then [0] else []⟩

theorem c6_topSort_witness :
    Closed exGraphC6 ∧ (topSort exGraphC6 = none ↔ HasCycle exGraphC6) :=
  ⟨by decide, (c6_topSort exGraphC6 (by decide)).2⟩

/-- The `GraphRef` implementation for `&Digle`: `nodes` chains the live
lines and the deleted lines, and `out_neighbors`/`in_neighbors` map
`all_out_edges`/`all_in_edges` (which include deleted edges) to their
destinations. -/
def digleGraph (d : DigleData) : Graph :=
  ⟨d.lines ++ d.deleted_lines,
   fun u => (allOutEdges d u).map Edge.dest,
   fun u => (allInEdges d u).map Edge.dest⟩

theorem digleGraph_closed (d : DigleData) (hc : ConsistentG d) :
    Closed (digleGraph d) := by
  intro u _ v hv
  simp only [digleGraph, allOutEdges, List.mem_map] at hv
  obtain ⟨e, he, rfl⟩ := hv
  have hk : Known d e.dest := (hc.2.1 u e he).2.1
  rcases hk with h | h
  · exact List.mem_append_left _ h
  · exact List.mem_append_right _ h

/-- C10: the graph view of a digle exposes `nodes()` as the live lines
followed by the tombstoned lines, `out_neighbors`/`in_neighbors` as the
destinations of all (also deleted) edges, and consequently a `top_sort`
traversal of a consistent digle reaches every known line, tombstoned ones
included. -/
theorem c10_digle_graph_view (d : DigleData) :
    ((digleGraph d).nodes = d.lines ++ d.deleted_lines ∧
     (∀ u, (digleGraph d).outN u = (allOutEdges d u).map Edge.dest) ∧
     (∀ u, (digleGraph d).inN u = (allInEdges d u).map Edge.dest)) ∧
    (∀ u e, e ∈ d.edges.get u → e.dest ∈ (digleGraph d).outN u) ∧
    (∀ u e, e ∈ d.back_edges.get u → e.dest ∈ (digleGraph d).inN u) ∧
    (d.WF → Consistent d → ∀ l, topSort (digleGraph d) = some l →
      ∀ x, Known d x → x ∈ l) := by
  refine ⟨⟨rfl, fun u => rfl, fun u => rfl⟩, ?_, ?_, ?_⟩
  · intro u e he
    exact List.mem_map.2 ⟨e, he, rfl⟩
  · intro u e he
    exact List.mem_map.2 ⟨e, he, rfl⟩
  · intro hwf hcons l hts x hx
    have hcg : ConsistentG d := (consistent_iff_g d hwf).1 hcons
    have hcl : Closed (digleGraph d) := digleGraph_closed d hcg
    have hprops := topSort_some_props (digleGraph d) hcl l hts
    have hxn : x ∈ (digleGraph d).nodes := by
      rcases hx with h | h
      · exact List.mem_append_left _ h
      · exact List.mem_append_right _ h
    exact (hprops.2.1 x).2 hxn

theorem c10_digle_graph_view_witness :
    DigleData.WF exDigleC1 ∧ Consistent exDigleC1 ∧
    topSort (digleGraph exDigleC1) = some [0, 2, 1] ∧
    Known exDigleC1 1 ∧ (1 : LineId) ∈ [0, 2, 1] :=
  ⟨by decide, by decide, by decide, by decide,
    (c10_digle_graph_view exDigleC1).2.2.2 (by decide) (by decide)
      [0, 2, 1] (by decide) 1 (by decide)⟩
